import Mathlib

/-!
Verification of the entity-extraction and graph-construction engine of the
code-sphere repository (src/services/parser.ts, class CodeParser).

The embedding models file text as `List Char`.  The JavaScript regular
expressions used by the parser are embedded as dedicated backtracking
matchers built from a small set of continuation-passing combinators that
realise the regex semantics actually exercised by the source patterns:
leftmost match, ordered alternation, greedy quantifiers over character
classes with backtracking, and optional groups tried greedily first.
JavaScript Map objects (insertion-ordered, set replaces in place) are
modelled as association lists.  The floating point node size field
(base values 15 / 8 / 6, incremented by 0.3 per inbound call) is modelled
in exact tenths (150 / 80 / 60, incremented by 3); no claim depends on
floating point rounding.  All definitions are structurally recursive so
that concrete runs reduce inside the kernel.
-/

/-! ## Character classes -/

/-- The character class `[a-zA-Z0-9_$]` used by the typescript and javascript
identifier captures of parser.ts. -/
def identChar (c : Char) : Bool :=
  c.isAlphanum || c = '_' || c = '$'

/-- The character class `[a-zA-Z0-9_]` used by the rust and python identifier
captures of parser.ts. -/
def identCharU (c : Char) : Bool :=
  c.isAlphanum || c = '_'

/-- The JavaScript regex class `\s` restricted to its ASCII members
(space, tab, newline, carriage return, vertical tab, form feed); the source
texts considered here contain no further unicode whitespace. -/
def jsSpace (c : Char) : Bool :=
  c = ' ' || c = '\t' || c = '\n' || c = '\r' || c.toNat = 11 || c.toNat = 12

/-- JavaScript regex word characters, as used by the `\b` boundary assertion. -/
def wordChar (c : Char) : Bool :=
  c.isAlphanum || c = '_'

/-- The `\b` assertion at a match start: the word-ness of the previous
character (none at the start of the text) differs from that of the current
character. -/
def boundaryOk (prev : Option Char) (c : Char) : Bool :=
  wordChar c != (match prev with | none => false | some p => wordChar p)

def chars (s : String) : List Char := s.data

/-! ## Backtracking pattern combinators

A matcher piece has shape `List Char → (List Char → Option α) → Option α`:
it consumes a prefix of the input and passes the remainder to the
continuation, retrying shorter prefixes (for greedy quantifiers) or later
alternatives when the continuation fails. -/

/-- Try continuation `k` at lengths `n, n-1, ..., lo`, longest first. -/
def shrinkTry (k : Nat → Option α) (lo : Nat) : Nat → Option α
  | 0 => k 0
  | n + 1 =>
    match k (n + 1) with
    | some r => some r
    | none => if lo < n + 1 then shrinkTry k lo n else none

/-- Literal text. -/
def pLit (lit : List Char) (cs : List Char) (k : List Char → Option α) : Option α :=
  if lit.isPrefixOf cs then k (cs.drop lit.length) else none

/-- A single character from a class. -/
def pCls (p : Char → Bool) (cs : List Char) (k : List Char → Option α) : Option α :=
  match cs with
  | c :: rest => if p c then k rest else none
  | [] => none

/-- Greedy quantifier over a character class with lower bound `lo`
(`\s*` is `pRun jsSpace 0`, `[^)]+` is `pRun (fun c => c != ')') 1`, ...):
matches the longest run first and backtracks to shorter runs. -/
def pRun (p : Char → Bool) (lo : Nat) (cs : List Char) (k : List Char → Option α) : Option α :=
  let m := (cs.takeWhile p).length
  if m < lo then none else shrinkTry (fun n => k (cs.drop n)) lo m

/-- Greedy capturing quantifier over a character class: like `pRun` but the
continuation also receives the consumed characters. -/
def pCapRun (p : Char → Bool) (lo : Nat) (cs : List Char)
    (k : List Char → List Char → Option α) : Option α :=
  let m := (cs.takeWhile p).length
  if m < lo then none else shrinkTry (fun n => k (cs.take n) (cs.drop n)) lo m

/-- Optional group `(?:m)?`, tried greedily: with `m` first, without on failure. -/
def pOpt (m : List Char → (List Char → Option α) → Option α)
    (cs : List Char) (k : List Char → Option α) : Option α :=
  match m cs k with
  | some r => some r
  | none => k cs

/-- Ordered alternation `m₁|m₂`. -/
def pAlt (m₁ m₂ : List Char → (List Char → Option α) → Option α)
    (cs : List Char) (k : List Char → Option α) : Option α :=
  match m₁ cs k with
  | some r => some r
  | none => m₂ cs k

/-! ## Global scanning (RegExp.exec with the g flag)

`scanAllB` repeatedly finds the leftmost match at or after the current
position, records its index and captures, and resumes after the matched
text, tracking the previous character for `\b` assertions. -/

def scanAllBAux (m : Option Char → List Char → Option (α × Nat)) :
    Nat → Option Char → List Char → Nat → Nat → List (Nat × α)
  | 0, _, _, _, _ => []
  | _ + 1, _, [], _, _ => []
  | fuel + 1, prev, c :: rest, pos, skip =>
    match skip with
    | s + 1 => scanAllBAux m fuel (some c) rest (pos + 1) s
    | 0 =>
      match m prev (c :: rest) with
      | some (a, len) =>
        (pos, a) :: scanAllBAux m fuel (some c) rest (pos + 1) (max len 1 - 1)
      | none => scanAllBAux m fuel (some c) rest (pos + 1) 0

def scanAllB (m : Option Char → List Char → Option (α × Nat)) (cs : List Char) :
    List (Nat × α) :=
  scanAllBAux m cs.length none cs 0 0

/-- Line number of a character index: the source computes
`content.substring(0, index).split("\n").length`, i.e. one plus the number
of newlines before the index. -/
def lineOfIndex (cs : List Char) (idx : Nat) : Nat :=
  ((cs.take idx).filter (fun c => c = '\n')).length + 1

/-! ## Path utilities of CodeParser -/

/-- Split on every separator character (JavaScript String.split against a
character class; empty segments are produced between adjacent separators
and at the ends, exactly as in JavaScript). -/
def splitOnPred (p : Char → Bool) : List Char → List (List Char)
  | [] => [[]]
  | c :: rest =>
    let r := splitOnPred p rest
    if p c then [] :: r
    else
      match r with
      | s :: ss => (c :: s) :: ss
      | [] => [[c]]

def pathSep (c : Char) : Bool := c = '/' || c = '\\'

/-- Embeds CodeParser.normalizePath: split the path on separators, drop
empty and `.` segments, let `..` pop the stack (a pop on an empty stack is
a no-op), and rejoin with forward slashes.  The source splits with
`/[\\/]+/`, which collapses separator runs; splitting on every separator
instead produces extra empty segments that the empty-segment skip removes,
so the result is identical. -/
def normalizePath (rawPath : String) : String :=
  let parts := splitOnPred pathSep (chars rawPath)
  let stack := parts.foldl
    (fun (stack : List (List Char)) part =>
      if part = [] || part = ['.'] then stack
      else if part = chars ".." then stack.dropLast
      else stack ++ [part]) []
  String.mk (List.intercalate ['/'] stack)

/-- Embeds CodeParser.resolveImportPath: relative specifiers (leading `.`)
are joined to the directory of the importing file and normalized; other
specifiers are returned verbatim. -/
def resolveImportPath (filePath importPath : String) : String :=
  match chars importPath with
  | '.' :: _ =>
    let segs := splitOnPred (fun c => c = '/') (chars filePath)
    let baseDir := String.mk (List.intercalate ['/'] segs.dropLast)
    normalizePath (baseDir ++ "/" ++ importPath)
  | _ => importPath

/-- The folder key used by CodeParser.getFolderColor: all path segments but
the last, joined with `/`, with `root` for an empty result. -/
def folderOf (path : String) : String :=
  let segments := splitOnPred pathSep (chars path)
  let folder := String.mk (List.intercalate ['/'] segments.dropLast)
  if folder = "" then "root" else folder

def greenPalette : List String :=
  ["#00ff41", "#00ff9f", "#ccff00", "#00ffff", "#a0ff00",
   "#39ff14", "#7fff00", "#00ffcc", "#f0ff00", "#adff2f"]

/-! ## JavaScript Map as an insertion-ordered association list -/

def lookupKey (m : List (String × α)) (k : String) : Option α :=
  match m with
  | [] => none
  | (k₁, v) :: rest => if k₁ = k then some v else lookupKey rest k

def hasKey (m : List (String × α)) (k : String) : Bool :=
  (lookupKey m k).isSome

/-- JavaScript Map.set: replace in place when the key exists, append otherwise. -/
def jsSet (m : List (String × α)) (k : String) (v : α) : List (String × α) :=
  match m with
  | [] => [(k, v)]
  | (k₁, v₁) :: rest => if k₁ = k then (k, v) :: rest else (k₁, v₁) :: jsSet rest k v

/-- Embeds CodeParser.getFolderColor: on a fresh folder, assign the palette
colour indexed by the current map size; return the folder colour and the
updated map. -/
def getFolderColor (folderColors : List (String × String)) (path : String) :
    String × List (String × String) :=
  let folder := folderOf path
  let folderColors :=
    if hasKey folderColors folder then folderColors
    else jsSet folderColors folder
      ((greenPalette.drop (folderColors.length % greenPalette.length)).headD "")
  (match lookupKey folderColors folder with
   | some c => c
   | none => greenPalette.headD "", folderColors)

/-! ## Data model -/

inductive SupportedLanguage where
  | typescript
  | javascript
  | python
  | go
  | java
  | rust
deriving DecidableEq

def langTag : SupportedLanguage → String
  | .typescript => "typescript"
  | .javascript => "javascript"
  | .python => "python"
  | .go => "go"
  | .java => "java"
  | .rust => "rust"

structure CodeNode where
  id : String
  name : String
  file : String
  line : Nat
  size : Nat
  color : String
  language : String
  linesOfCode : Nat
  type : String
  isType : Bool
deriving DecidableEq

structure CodeLink where
  source : String
  target : String
  value : Nat
  type : String
deriving DecidableEq

structure GraphData where
  nodes : List CodeNode
  links : List CodeLink
deriving DecidableEq

structure ImportMeta where
  sourceFile : String
  originalName : String
deriving DecidableEq

structure ParserState where
  nodes : List (String × CodeNode)
  links : List CodeLink
  folderColors : List (String × String)
  impRegistry : List (String × List (String × ImportMeta))
  classMethodsReg : List (String × List (String × List (String × String)))
deriving DecidableEq

def emptyState : ParserState := ⟨[], [], [], [], []⟩

/-- The language detection of CodeParser.detectLanguage. -/
def endsWithS (s suffix : String) : Bool :=
  (chars suffix).isSuffixOf (chars s)

def detectLanguage (fileName : String) (fallback : SupportedLanguage) : SupportedLanguage :=
  if endsWithS fileName ".ts" || endsWithS fileName ".tsx" then .typescript
  else if endsWithS fileName ".js" || endsWithS fileName ".jsx" then .javascript
  else if endsWithS fileName ".py" then .python
  else if endsWithS fileName ".go" then .go
  else if endsWithS fileName ".java" then .java
  else if endsWithS fileName ".rs" then .rust
  else fallback

def generateId (file name : String) : String := file ++ ":" ++ name

/-! ## The declaration regexes of CodeParser, as backtracking matchers

Each matcher attempts the pattern at the head of its input and returns the
captured identifier together with the total match length. -/

/-- Embeds the typescript/javascript function pattern of
CodeParser.extractEntities:
an optional `export` prefix, then either `function` followed by a captured
identifier, or a `const`/`let`/`var` binding of an (optionally `async`)
arrow function, capturing the bound identifier. -/
def jsFnDeclAt (cs : List Char) : Option (String × Nat) :=
  let fin : List Char → List Char → Option (String × Nat) := fun cap rest =>
    some (String.mk cap, cs.length - rest.length)
  let parenArg : List Char → (List Char → Option (String × Nat)) → Option (String × Nat) :=
    fun c0 k =>
      pLit ['('] c0 fun c1 =>
      pRun (fun ch => ch != ')') 0 c1 fun c2 =>
      pLit [')'] c2 k
  let identArg : List Char → (List Char → Option (String × Nat)) → Option (String × Nat) :=
    fun c0 k => pRun identChar 1 c0 k
  let altFun : List Char → Option (String × Nat) := fun c0 =>
    pLit (chars "function") c0 fun c1 =>
    pRun jsSpace 1 c1 fun c2 =>
    pCapRun identChar 1 c2 fun cap c3 => fin cap c3
  let altVar : List Char → Option (String × Nat) := fun c0 =>
    pAlt (pLit (chars "const")) (pAlt (pLit (chars "let")) (pLit (chars "var"))) c0 fun c1 =>
    pRun jsSpace 1 c1 fun c2 =>
    pCapRun identChar 1 c2 fun cap c3 =>
    pRun jsSpace 0 c3 fun c4 =>
    pLit ['='] c4 fun c5 =>
    pRun jsSpace 0 c5 fun c6 =>
    pOpt (fun cA k => pLit (chars "async") cA fun cB => pRun jsSpace 0 cB k) c6 fun c7 =>
    pAlt parenArg identArg c7 fun c8 =>
    pRun jsSpace 0 c8 fun c9 =>
    pLit (chars "=>") c9 fun c10 => fin cap c10
  let body : List Char → Option (String × Nat) := fun c0 =>
    match altFun c0 with
    | some r => some r
    | none => altVar c0
  match pLit (chars "export") cs (fun c1 => pRun jsSpace 1 c1 body) with
  | some r => some r
  | none => body cs

/-- Embeds the rust function pattern of CodeParser.extractEntities: a word
boundary, optional `pub` with an optional parenthesised qualifier, optional
`async`, then `fn`, the captured identifier, optional generics and the
opening parenthesis. -/
def rustFnDeclAt (prev : Option Char) (cs : List Char) : Option (String × Nat) :=
  match cs with
  | [] => none
  | c :: _ =>
    if boundaryOk prev c then
      let fin : List Char → List Char → Option (String × Nat) := fun cap rest =>
        some (String.mk cap, cs.length - rest.length)
      pOpt (fun c0 k =>
          pLit (chars "pub") c0 fun c1 =>
          pOpt (fun cA kA =>
              pLit ['('] cA fun cB =>
              pRun (fun ch => ch != ')') 1 cB fun cC =>
              pLit [')'] cC kA) c1 fun c2 =>
          pRun jsSpace 1 c2 k) cs fun c3 =>
      pOpt (fun c0 k => pLit (chars "async") c0 fun c1 => pRun jsSpace 1 c1 k) c3 fun c4 =>
      pLit (chars "fn") c4 fun c5 =>
      pRun jsSpace 1 c5 fun c6 =>
      pCapRun identCharU 1 c6 fun cap c7 =>
      pRun jsSpace 0 c7 fun c8 =>
      pOpt (fun c0 k =>
          pLit ['<'] c0 fun c1 =>
          pRun (fun ch => ch != '>') 0 c1 fun c2 =>
          pLit ['>'] c2 k) c8 fun c9 =>
      pRun jsSpace 0 c9 fun c10 =>
      pLit ['('] c10 fun c11 => fin cap c11
    else none

/-- Embeds the python function pattern of CodeParser.extractEntities:
`def`, whitespace, the captured identifier, optional whitespace and the
opening parenthesis. -/
def pyFnDeclAt (cs : List Char) : Option (String × Nat) :=
  pLit (chars "def") cs fun c1 =>
  pRun jsSpace 1 c1 fun c2 =>
  pCapRun identCharU 1 c2 fun cap c3 =>
  pRun jsSpace 0 c3 fun c4 =>
  pLit ['('] c4 fun c5 => some (String.mk cap, cs.length - c5.length)

/-- Embeds the interface pattern of CodeParser.extractTypeScriptTypes:
an optional `export` prefix, then `interface` or `type` followed by the
captured identifier. -/
def interfaceDeclAt (cs : List Char) : Option (String × Nat) :=
  let body : List Char → Option (String × Nat) := fun c0 =>
    pAlt (pLit (chars "interface")) (pLit (chars "type")) c0 fun c1 =>
    pRun jsSpace 1 c1 fun c2 =>
    pCapRun identChar 1 c2 fun cap c3 => some (String.mk cap, cs.length - c3.length)
  match pLit (chars "export") cs (fun c1 => pRun jsSpace 1 c1 body) with
  | some r => some r
  | none => body cs

/-- Embeds the class pattern of CodeParser.extractClassMethods: `class`,
the captured class name, an optional `extends` clause and the opening
brace. -/
def classDeclAt (cs : List Char) : Option (String × Nat) :=
  pLit (chars "class") cs fun c1 =>
  pRun jsSpace 1 c1 fun c2 =>
  pCapRun identChar 1 c2 fun cap c3 =>
  pRun jsSpace 0 c3 fun c4 =>
  pOpt (fun c0 k =>
      pLit (chars "extends") c0 fun cA =>
      pRun jsSpace 1 cA fun cB =>
      pRun identChar 1 cB k) c4 fun c5 =>
  pRun jsSpace 0 c5 fun c6 =>
  pLit ['\x7b'] c6 fun c7 => some (String.mk cap, cs.length - c7.length)

/-- Embeds the method pattern of CodeParser.extractClassMethods: optional
`async`, visibility and `static` prefixes, the captured method name, a
parameter list without nested parentheses, an optional return type
annotation and the opening brace. -/
def methodDeclAt (cs : List Char) : Option (String × Nat) :=
  let kwWs : String → List Char → (List Char → Option (String × Nat)) → Option (String × Nat) :=
    fun kw c0 k => pLit (chars kw) c0 fun c1 => pRun jsSpace 1 c1 k
  pOpt (kwWs "async") cs fun c1 =>
  pOpt (pAlt (kwWs "private") (pAlt (kwWs "protected") (kwWs "public"))) c1 fun c2 =>
  pOpt (kwWs "static") c2 fun c3 =>
  pOpt (kwWs "async") c3 fun c4 =>
  pCapRun identChar 1 c4 fun cap c5 =>
  pRun jsSpace 0 c5 fun c6 =>
  pLit ['('] c6 fun c7 =>
  pRun (fun ch => ch != ')') 0 c7 fun c8 =>
  pLit [')'] c8 fun c9 =>
  pRun jsSpace 0 c9 fun c10 =>
  pOpt (fun c0 k =>
      pLit [':'] c0 fun cA =>
      pRun jsSpace 0 cA fun cB =>
      pRun (fun ch => ch != '\x7b') 1 cB k) c10 fun c11 =>
  pRun jsSpace 0 c11 fun c12 =>
  pLit ['\x7b'] c12 fun c13 => some (String.mk cap, cs.length - c13.length)

/-- Captures of one import statement match in CodeParser.extractImports. -/
structure ImportCaptures where
  defaultImport : Option String
  namedImports : Option String
  starImport : Option String
  importPath : String
deriving DecidableEq

def quoteChar (c : Char) : Bool := c = '"' || c = Char.ofNat 39

/-- Embeds the import regex of CodeParser.extractImports: `import`, one of
a default import identifier, a braced named-import list, or `* as`
identifier, then `from` and a quoted module specifier. -/
def importDeclAt (cs : List Char) : Option (ImportCaptures × Nat) :=
  let fin : Option String → Option String → Option String → List Char → List Char →
      Option (ImportCaptures × Nat) := fun d n st src rest =>
    some ({ defaultImport := d, namedImports := n, starImport := st,
            importPath := String.mk src }, cs.length - rest.length)
  let tail : Option String → Option String → Option String → List Char →
      Option (ImportCaptures × Nat) := fun d n st c3 =>
    pRun jsSpace 1 c3 fun c4 =>
    pLit (chars "from") c4 fun c5 =>
    pRun jsSpace 1 c5 fun c6 =>
    pCls quoteChar c6 fun c7 =>
    pCapRun (fun ch => !(quoteChar ch)) 1 c7 fun src c8 =>
    pCls quoteChar c8 fun c9 => fin d n st src c9
  pLit (chars "import") cs fun c1 =>
  pRun jsSpace 1 c1 fun c2 =>
  let altDefault : Option (ImportCaptures × Nat) :=
    pCapRun identChar 1 c2 fun cap c3 => tail (some (String.mk cap)) none none c3
  let altNamed : Option (ImportCaptures × Nat) :=
    pLit ['\x7b'] c2 fun c3 =>
    pCapRun (fun ch => ch != '\x7d') 1 c3 fun cap c4 =>
    pLit ['\x7d'] c4 fun c5 => tail none (some (String.mk cap)) none c5
  let altStar : Option (ImportCaptures × Nat) :=
    pLit ['*'] c2 fun c3 =>
    pRun jsSpace 1 c3 fun c4 =>
    pLit (chars "as") c4 fun c5 =>
    pRun jsSpace 1 c5 fun c6 =>
    pCapRun identChar 1 c6 fun cap c7 => tail none none (some (String.mk cap)) c7
  match altDefault with
  | some r => some r
  | none =>
    match altNamed with
    | some r => some r
    | none => altStar

/-- Embeds the call-site pattern of CodeParser.extractCalls, built per
visible entity: a word boundary, the call name, optional whitespace and an
opening parenthesis.  The source interpolates the name into the regex
verbatim; captured names consist of identifier characters, of which only
the dollar character is a regex metacharacter in JavaScript, and it is
modelled here as literal text. -/
def callSiteAt (nm : List Char) (prev : Option Char) (cs : List Char) : Option (Unit × Nat) :=
  match cs with
  | [] => none
  | c :: _ =>
    if boundaryOk prev c && nm.isPrefixOf cs then
      pRun jsSpace 0 (cs.drop nm.length) fun c2 =>
      pLit ['('] c2 fun c3 => some ((), cs.length - c3.length)
    else none

/-- All call-site match indices of a name in a text. -/
def findCallSites (nm : List Char) (content : List Char) : List Nat :=
  (scanAllB (callSiteAt nm) content).map Prod.fst

/-! ## Import statement processing (CodeParser.extractImports) -/

/-- JavaScript String.trim on the whitespace model used here. -/
def trimJs (cs : List Char) : List Char :=
  ((cs.dropWhile jsSpace).reverse.dropWhile jsSpace).reverse

/-- Split on a single character (JavaScript String.split with a one
character separator). -/
def splitChar (sep : Char) (cs : List Char) : List (List Char) :=
  splitOnPred (fun c => c = sep) cs

/-- Match the separator regex of the named-import split, `\s+as\s+`, at the
head of the input, returning the remainder after the separator. -/
def asSepAt (cs : List Char) : Option (List Char) :=
  let ws1 := cs.takeWhile jsSpace
  if ws1.isEmpty then none
  else
    let r1 := cs.drop ws1.length
    if (chars "as").isPrefixOf r1 then
      let r2 := r1.drop 2
      let ws2 := r2.takeWhile jsSpace
      if ws2.isEmpty then none else some (r2.drop ws2.length)
    else none

/-- JavaScript String.split against the regex `\s+as\s+`: leftmost-first
separator matches, greedy whitespace. -/
def splitAsAux : Nat → List Char → List Char → List (List Char)
  | 0, acc, rest => [acc.reverse ++ rest]
  | fuel + 1, acc, cs =>
    match cs with
    | [] => [acc.reverse]
    | c :: rest =>
      match asSepAt (c :: rest) with
      | some rem => acc.reverse :: splitAsAux fuel [] rem
      | none => splitAsAux fuel (c :: acc) rest

def splitAs (cs : List Char) : List (List Char) :=
  splitAsAux cs.length [] cs

/-- The JavaScript expression `alias || orig` for the local binding name:
a missing or empty alias falls back to the original name. -/
def aliasOr (al : Option String) (orig : String) : String :=
  match al with
  | some a => if a = "" then orig else a
  | none => orig

/-- Processing of one named-import list `{ a, b as c, ... }`: split on
commas, trim, split each part on ` as `, and bind the local (post-alias)
name to the resolved source and original name. -/
def addNamedImports (fileImports : List (String × ImportMeta))
    (resolvedPath : String) (named : String) : List (String × ImportMeta) :=
  (splitChar ',' (chars named)).foldl
    (fun fileImports p =>
      let parts := splitAs (trimJs p)
      let orig := String.mk (parts.headD [])
      let al := (parts.drop 1).head?.map String.mk
      jsSet fileImports (aliasOr al orig)
        { sourceFile := resolvedPath, originalName := orig })
    fileImports

/-- Processing of one import statement match: resolve the specifier, then
bind the default import to `default`, a star import to `*`, and each
named import to its original name, in the order of the source. -/
def processImportCaps (fileImports : List (String × ImportMeta)) (path : String)
    (caps : ImportCaptures) : List (String × ImportMeta) :=
  let resolvedPath := resolveImportPath path caps.importPath
  let fileImports :=
    match caps.defaultImport with
    | some d => jsSet fileImports d { sourceFile := resolvedPath, originalName := "default" }
    | none => fileImports
  let fileImports :=
    match caps.starImport with
    | some st => jsSet fileImports st { sourceFile := resolvedPath, originalName := "*" }
    | none => fileImports
  match caps.namedImports with
  | some n => addNamedImports fileImports resolvedPath n
  | none => fileImports

/-- Embeds CodeParser.extractImports: only typescript and javascript files
are scanned; every matched import statement contributes its bindings, and
the per-file map (possibly empty) is recorded in the import registry. -/
def extractImportsPhase (s : ParserState) (content : String) (path : String)
    (lang : SupportedLanguage) : ParserState :=
  if lang ≠ SupportedLanguage.typescript ∧ lang ≠ SupportedLanguage.javascript then s
  else
    let fileImports := (scanAllB (fun _ => importDeclAt) (chars content)).foldl
      (fun fi m => processImportCaps fi path m.2) []
    { s with impRegistry := jsSet s.impRegistry path fileImports }

/-! ## Entity extraction (CodeParser.extractEntities and helpers) -/

def reservedNames : List String := ["if", "while", "for", "loop", "match"]

/-- Keep the total match length alongside the captures (the length of
match[0], needed where the source inspects the matched text). -/
def withLen (m : List Char → Option (String × Nat)) :
    Option Char → List Char → Option ((String × Nat) × Nat) :=
  fun _ cs => (m cs).map (fun r => (r, r.2))

/-- Substring containment (JavaScript String.includes). -/
def containsSub (needle : List Char) : List Char → Bool
  | [] => needle.isPrefixOf []
  | c :: rest => needle.isPrefixOf (c :: rest) || containsSub needle rest

/-- The per-language function declaration pattern table of
CodeParser.extractEntities (rust, javascript, typescript, python; other
languages have no pattern). -/
def entityPatternFor (lang : SupportedLanguage) :
    Option (Option Char → List Char → Option (String × Nat)) :=
  match lang with
  | .rust => some rustFnDeclAt
  | .javascript => some (fun _ => jsFnDeclAt)
  | .typescript => some (fun _ => jsFnDeclAt)
  | .python => some (fun _ => pyFnDeclAt)
  | _ => none

/-- Embeds the delimiter-depth while loop of CodeParser.extractClassMethods:
starting just after the opening brace with depth 1, walk forward adjusting
the depth at every brace until the depth reaches zero or the end of the
text; the fuel argument equals the number of characters left and only
bounds the structural recursion. -/
def braceScanAux (cs : List Char) : Nat → Nat → Nat → Nat
  | 0, idx, _ => idx
  | fuel + 1, idx, depth =>
    if depth > 0 ∧ idx < cs.length then
      let c := cs.getD idx ' '
      let d := if c = '\x7b' then depth + 1 else if c = '\x7d' then depth - 1 else depth
      braceScanAux cs fuel (idx + 1) d
    else idx

def braceScan (cs : List Char) (idx depth : Nat) : Nat :=
  braceScanAux cs (cs.length - idx) idx depth

/-- Embeds CodeParser.extractClassMethods: find each class declaration,
bound its body by delimiter-depth scanning, extract method declarations
inside the body (no reserved-name filtering here), register one method
entity per match and record the per-class method registry. -/
def extractClassMethods (s : ParserState) (content : String) (path : String)
    (lang : SupportedLanguage) (folderColor : String) : ParserState :=
  let cs := chars content
  (scanAllB (withLen classDeclAt) cs).foldl
    (fun s cm =>
      let classStartIdx := cm.1
      let className := cm.2.1
      let classEndIdx := braceScan cs (classStartIdx + cm.2.2) 1
      let classContent := (cs.drop classStartIdx).take (classEndIdx - classStartIdx)
      let folded := (scanAllB (fun _ => methodDeclAt) classContent).foldl
        (fun (acc : ParserState × List (String × String)) mm =>
          let methodName := mm.2
          let methodLine := lineOfIndex cs (classStartIdx + mm.1)
          let methodId := path ++ ":" ++ className ++ "." ++ methodName
          let node : CodeNode :=
            { id := methodId, name := className ++ "." ++ methodName, file := path,
              line := methodLine, size := 80, color := folderColor,
              language := langTag lang, linesOfCode := 0, type := "method",
              isType := false }
          ({ acc.1 with nodes := jsSet acc.1.nodes methodId node },
           jsSet acc.2 methodName methodId))
        (s, [])
      let s := folded.1
      let reg := if hasKey s.classMethodsReg path then s.classMethodsReg
                 else jsSet s.classMethodsReg path []
      let fileClassMethods := (lookupKey reg path).getD []
      { s with classMethodsReg := jsSet reg path (jsSet fileClassMethods className folded.2) })
    s

/-- Embeds CodeParser.extractTypeScriptTypes: one interface or type entity
per declaration match, first occurrence of an id wins, tagged by whether
the matched text contains the word `interface`. -/
def extractTypeScriptTypes (s : ParserState) (content : String) (path : String)
    (folderColor : String) : ParserState :=
  let cs := chars content
  (scanAllB (withLen interfaceDeclAt) cs).foldl
    (fun s m =>
      let typeName := m.2.1
      let matched := (cs.drop m.1).take m.2.2
      let isInterface : Bool := containsSub (chars "interface") matched
      let lineNum := lineOfIndex cs m.1
      let typeId := path ++ ":" ++ typeName
      if hasKey s.nodes typeId then s
      else
        let node : CodeNode :=
          { id := typeId, name := typeName, file := path, line := lineNum, size := 60,
            color := if isInterface then "#00bfff" else "#ff69b4",
            language := "typescript", linesOfCode := 0,
            type := if isInterface then "interface" else "type", isType := true }
        { s with nodes := jsSet s.nodes typeId node })
    s

/-- Embeds CodeParser.extractEntities: run the per-language function
pattern over the text, discarding empty and reserved captured names; then,
for typescript and javascript, extract class methods, and for typescript
also structural types. -/
def extractEntities (s : ParserState) (content : String) (path : String)
    (lang : SupportedLanguage) : ParserState :=
  let fc := getFolderColor s.folderColors path
  let folderColor := fc.1
  let s := { s with folderColors := fc.2 }
  let cs := chars content
  let s :=
    match entityPatternFor lang with
    | some m =>
      (scanAllB m cs).foldl
        (fun s t =>
          let name := t.2
          if name = "" ∨ name ∈ reservedNames then s
          else
            let lineNum := lineOfIndex cs t.1
            let id := generateId path name
            let node : CodeNode :=
              { id := id, name := name, file := path, line := lineNum, size := 80,
                color := folderColor, language := langTag lang, linesOfCode := 0,
                type := "function", isType := false }
            { s with nodes := jsSet s.nodes id node })
        s
    | none => s
  if lang = SupportedLanguage.typescript ∨ lang = SupportedLanguage.javascript then
    let s := extractClassMethods s content path lang folderColor
    if lang = SupportedLanguage.typescript then
      extractTypeScriptTypes s content path folderColor
    else s
  else s

/-! ## Call-edge inference (CodeParser.extractCalls, findEnclosingEntity) -/

/-- Strip a trailing `.ts`, `.tsx`, `.js` or `.jsx` extension, the effect
of the replacement regex used on file paths in extractCalls. -/
def stripTsJsExt (file : String) : String :=
  let cs := chars file
  if endsWithS file ".tsx" ∨ endsWithS file ".jsx" then String.mk (cs.take (cs.length - 4))
  else if endsWithS file ".ts" ∨ endsWithS file ".js" then String.mk (cs.take (cs.length - 3))
  else file

/-- The last slash-separated path segment (split then pop). -/
def lastSegment (s : String) : String :=
  String.mk ((splitOnPred (fun c => c = '/') (chars s)).getLastD [])

/-- The import-binding search of extractCalls: walk the bindings of the
current file in insertion order and return the first local name whose
resolved source matches the declaring file of the target (by
extension-stripped basename equality or substring containment) and whose
original exported name is the wildcard or the target name. -/
def findVisibleBinding (target : CodeNode) : List (String × ImportMeta) → Option String
  | [] => none
  | (localName, meta) :: rest =>
    let targetBaseName := lastSegment (stripTsJsExt target.file)
    let importBaseName := lastSegment (stripTsJsExt meta.sourceFile)
    if (targetBaseName = importBaseName ∨ containsSub (chars meta.sourceFile) (chars target.file)) ∧
       (meta.originalName = "*" ∨ meta.originalName = target.name)
    then some localName
    else findVisibleBinding target rest

/-- The visibility resolution of extractCalls for one target entity:
visible under its own name when declared in the current file, otherwise
under the local name of a matching import binding. -/
def resolveCallName (s : ParserState) (path : String) (target : CodeNode) : Bool × String :=
  if target.file = path then (true, target.name)
  else
    match lookupKey s.impRegistry path with
    | some fileImports =>
      match findVisibleBinding target fileImports with
      | some localName => (true, localName)
      | none => (false, target.name)
    | none => (false, target.name)

/-- Stable sort by descending declaration line (JavaScript sort with the
comparator on lines; Array.prototype.sort is stable). -/
def insertByLineDesc (a : CodeNode) : List CodeNode → List CodeNode
  | [] => [a]
  | b :: l => if b.line ≤ a.line then a :: b :: l else b :: insertByLineDesc a l

def sortByLineDesc (l : List CodeNode) : List CodeNode :=
  l.foldr insertByLineDesc []

/-- Embeds CodeParser.findEnclosingEntity: among the non-file entities of
the file, sorted by descending line, the first whose line is at most the
call-site line. -/
def findEnclosingEntity (nodes : List (String × CodeNode)) (path : String) (line : Nat) :
    Option CodeNode :=
  (sortByLineDesc ((nodes.map Prod.snd).filter
      (fun n => n.file == path && n.type != "file"))).find?
    (fun n => decide (n.line ≤ line))

/-- Embeds the per-match body of extractCalls: locate the enclosing entity
of the call-site line; when it exists and differs from the target, push a
call edge unless an edge with the same source and target already exists,
and bump the target size. -/
def bumpTargetSize (nodes : List (String × CodeNode)) (targetId : String) :
    List (String × CodeNode) :=
  match lookupKey nodes targetId with
  | some node => jsSet nodes targetId { node with size := node.size + 3 }
  | none => nodes

def handleCallSite (s : ParserState) (path : String) (target : CodeNode) (line : Nat) :
    ParserState :=
  match findEnclosingEntity s.nodes path line with
  | none => s
  | some sourceNode =>
    if sourceNode.id = target.id then s
    else if s.links.any (fun l => l.source == sourceNode.id && l.target == target.id) then s
    else { s with links := s.links ++ [⟨sourceNode.id, target.id, 1, "call"⟩],
                  nodes := bumpTargetSize s.nodes target.id }

/-- The call-site scan of extractCalls for one visible target. -/
def scanTargetCalls (s : ParserState) (content : List Char) (path : String)
    (target : CodeNode) (callName : String) : ParserState :=
  (findCallSites (chars callName) content).foldl
    (fun s idx => handleCallSite s path target (lineOfIndex content idx)) s

/-- The per-target step of extractCalls: skip file nodes; resolve
visibility; skip invisible targets except in python files (where every
entity is treated as visible under its original name); scan the text for
call sites of the resolved name. -/
def callTargetStep (s : ParserState) (content : List Char) (path : String)
    (lang : SupportedLanguage) (target : CodeNode) : ParserState :=
  if target.type = "file" then s
  else if (resolveCallName s path target).1 = false ∧ lang ≠ SupportedLanguage.python then s
  else scanTargetCalls s content path target (resolveCallName s path target).2

/-- Embeds CodeParser.extractCalls: iterate a snapshot of all known nodes
and run the per-target step against the text of the current file. -/
def extractCallsPhase (s : ParserState) (content : String) (path : String)
    (lang : SupportedLanguage) : ParserState :=
  let allNodes := s.nodes.map Prod.snd
  allNodes.foldl (fun s target => callTargetStep s (chars content) path lang target) s

/-! ## File import links (CodeParser.createFileImportLinks) -/

def extensionProbes : List String :=
  ["", ".ts", ".tsx", ".js", ".jsx", ".d.ts", "/index.ts", "/index.tsx", "/index.js", "/index.jsx"]

/-- Embeds CodeParser.createFileImportLinks: for each registered importing
file that is a known node, and for each of its bindings, probe the fixed
extension list against the known nodes; on the first hit push an import
edge unless one with the same source and target exists (the loop breaks at
the first hit, which the find over the probe list realises). -/
def createFileImportLinks (s : ParserState) (filePaths : List String) : ParserState :=
  let _ := filePaths
  let links := s.impRegistry.foldl
      (fun links entry =>
        let importingFile := entry.1
        if ¬ hasKey s.nodes importingFile then links
        else entry.2.foldl
          (fun links bind =>
            let resolvedPath := bind.2.sourceFile
            match extensionProbes.find? (fun ext => hasKey s.nodes (resolvedPath ++ ext)) with
            | some ext =>
              let targetPath := resolvedPath ++ ext
              if links.any (fun l => l.source == importingFile && l.target == targetPath)
              then links
              else links ++ [⟨importingFile, targetPath, 3, "import"⟩]
            | none => links)
          links)
      s.links
  { s with links := links }

/-! ## Orchestration (CodeParser.analyzeFiles) -/

structure InputFile where
  name : String
  webkitRelativePath : String
  content : String
deriving DecidableEq

structure FileContent where
  name : String
  path : String
  content : String
  lang : SupportedLanguage
deriving DecidableEq

/-- The ingestion loop of analyzeFiles: the path is the normalized relative
path when present (the empty string, like a missing property, falls back to
the file name), the language comes from the classifier. -/
def ingest (files : List InputFile) (mainLanguage : SupportedLanguage) : List FileContent :=
  files.map fun f =>
    { name := f.name
      path := normalizePath (if f.webkitRelativePath = "" then f.name else f.webkitRelativePath)
      content := f.content
      lang := detectLanguage f.name mainLanguage }

/-- The file-node loop of analyzeFiles: one file node per ingested file,
coloured by folder, with the sentinel `system` language tag. -/
def addFileNode (s : ParserState) (f : FileContent) : ParserState :=
  let fc := getFolderColor s.folderColors f.path
  let node : CodeNode :=
    { id := f.path, name := f.name, file := f.path, line := 0, size := 150,
      color := fc.1, language := "system", linesOfCode := 0, type := "file",
      isType := false }
  { s with folderColors := fc.2, nodes := jsSet s.nodes f.path node }

/-- The structure-edge loop of analyzeFiles: for every non-file node whose
declaring file is a known node, push a containment edge file to entity. -/
def addStructureLinks (s : ParserState) : ParserState :=
  let links := (s.nodes.map Prod.snd).foldl
      (fun links n =>
        if n.type != "file" && hasKey s.nodes n.file
        then links ++ [⟨n.file, n.id, 2, "structure"⟩]
        else links)
      s.links
  { s with links := links }

/-- Embeds CodeParser.analyzeFiles: reset state, ingest, add file nodes,
extract entities for all files, resolve imports for all files, create
file import links, infer call edges for all files, then add structure edges. -/
def analyzeState (files : List InputFile) (mainLanguage : SupportedLanguage) : ParserState :=
  let fileContents := ingest files mainLanguage
  let s := fileContents.foldl addFileNode emptyState
  let s := fileContents.foldl (fun s f => extractEntities s f.content f.path f.lang) s
  let s := fileContents.foldl (fun s f => extractImportsPhase s f.content f.path f.lang) s
  let s := createFileImportLinks s (fileContents.map (·.path))
  let s := fileContents.foldl (fun s f => extractCallsPhase s f.content f.path f.lang) s
  addStructureLinks s

/-- The graph returned by CodeParser.analyzeFiles. -/
def analyzeFiles (files : List InputFile) (mainLanguage : SupportedLanguage) : GraphData :=
  let s := analyzeState files mainLanguage
  { nodes := s.nodes.map Prod.snd, links := s.links }

/-! ## Concrete inputs used by the example claims -/

/-- The a.ts of the import/call resolution examples: a named aliased import
and a function run whose body calls h(). -/
def aTsContent : String :=
  "import \x7b helper as h \x7d from \"./b\"\nfunction run() \x7b\n  h()\n\x7d\n"

/-- The b.ts of the import/call resolution examples. -/
def bTsContent : String := "export function helper() \x7b\x7d\n"

def exampleTsFiles : List InputFile :=
  [⟨"a.ts", "", aTsContent⟩, ⟨"b.ts", "", bTsContent⟩]

/-- Two rust files in which caller() textually calls target() declared
in the other file, with no rust import model. -/
def exampleRustFiles : List InputFile :=
  [⟨"a.rs", "", "fn caller() \x7b\n    target();\n\x7d\n"⟩,
   ⟨"b.rs", "", "fn target() \x7b\x7d\n"⟩]

/-- Two python files in which caller() textually calls target() declared
in the other file, with no python import model. -/
def examplePyFiles : List InputFile :=
  [⟨"a.py", "", "def caller():\n    target()\n"⟩,
   ⟨"b.py", "", "def target():\n    pass\n"⟩]

/-- A typescript file whose class body contains an if statement that the
method pattern captures as a method named if. -/
def exampleClassFiles : List InputFile :=
  [⟨"c.ts", "", "class Foo \x7b if (x) \x7b y \x7d \x7d\n"⟩]

/-! ## Link and node invariants -/

/-- No two links share source and target, regardless of kind. -/
def PairDistinct (ls : List CodeLink) : Prop :=
  ls.Pairwise (fun a b => ¬(a.source = b.source ∧ a.target = b.target))

/-- No two links share kind, source and target. -/
def TripleDistinct (ls : List CodeLink) : Prop :=
  ls.Pairwise (fun a b => ¬(a.type = b.type ∧ a.source = b.source ∧ a.target = b.target))

/-- Invariant of the link collection before the structure-edge pass: links
are pairwise distinct on endpoints, every link is a call or import edge,
and call edges have distinct endpoints. -/
def LinksPre (ls : List CodeLink) : Prop :=
  PairDistinct ls ∧
  ∀ l ∈ ls, (l.type = "call" ∨ l.type = "import") ∧ (l.type = "call" → l.source ≠ l.target)

/-- Pointwise well-formedness of a node-map entry: the node carries its own
key as id, file nodes carry the sentinel language tag, function nodes never
carry a reserved name, and the declaring file of a non-file node is a key
of the map. -/
def NodeEntryOk (m : List (String × CodeNode)) (p : String × CodeNode) : Prop :=
  p.2.id = p.1 ∧
  (p.2.type = "file" → p.2.language = "system") ∧
  (p.2.type = "function" → p.2.name ∉ reservedNames) ∧
  (p.2.type ≠ "file" → hasKey m p.2.file = true)

/-- Well-formedness of the node map: distinct keys and pointwise entry
well-formedness. -/
def NodesWf (m : List (String × CodeNode)) : Prop :=
  (m.map Prod.fst).Nodup ∧ ∀ p ∈ m, NodeEntryOk m p

/-! ## Association list lemmas -/

/-- The node built by the function-pattern pass of extractEntities. -/
def entityNode (path : String) (lang : SupportedLanguage) (folderColor : String)
    (cs : List Char) (t : Nat × String) : CodeNode :=
  { id := generateId path t.2, name := t.2, file := path,
    line := lineOfIndex cs t.1, size := 80, color := folderColor,
    language := langTag lang, linesOfCode := 0, type := "function",
    isType := false }

/-- The per-match step of the function-pattern pass of extractEntities. -/
def entityStep (path : String) (lang : SupportedLanguage) (folderColor : String)
    (cs : List Char) (s : ParserState) (t : Nat × String) : ParserState :=
  if t.2 = "" ∨ t.2 ∈ reservedNames then s
  else
    let nodes := jsSet s.nodes (generateId path t.2) (entityNode path lang folderColor cs t)
    { s with nodes := nodes }

/-- The per-method step of extractClassMethods. -/
def methodStep (path className : String) (lang : SupportedLanguage) (folderColor : String)
    (cs : List Char) (classStartIdx : Nat)
    (acc : ParserState × List (String × String)) (mm : Nat × String) :
    ParserState × List (String × String) :=
  let methodName := mm.2
  let methodLine := lineOfIndex cs (classStartIdx + mm.1)
  let methodId := path ++ ":" ++ className ++ "." ++ methodName
  let node : CodeNode :=
    { id := methodId, name := className ++ "." ++ methodName, file := path,
      line := methodLine, size := 80, color := folderColor,
      language := langTag lang, linesOfCode := 0, type := "method",
      isType := false }
  ({ acc.1 with nodes := jsSet acc.1.nodes methodId node },
   jsSet acc.2 methodName methodId)

/-- The per-class step of extractClassMethods. -/
def classStep (content path : String) (lang : SupportedLanguage) (folderColor : String)
    (s : ParserState) (cm : Nat × String × Nat) : ParserState :=
  let cs := chars content
  let classStartIdx := cm.1
  let className := cm.2.1
  let classEndIdx := braceScan cs (classStartIdx + cm.2.2) 1
  let classContent := (cs.drop classStartIdx).take (classEndIdx - classStartIdx)
  let folded := (scanAllB (fun _ => methodDeclAt) classContent).foldl
    (methodStep path className lang folderColor cs classStartIdx) (s, [])
  let s := folded.1
  let reg := if hasKey s.classMethodsReg path then s.classMethodsReg
             else jsSet s.classMethodsReg path []
  let fileClassMethods := (lookupKey reg path).getD []
  { s with classMethodsReg := jsSet reg path (jsSet fileClassMethods className folded.2) }

/-- The node built by one extractTypeScriptTypes match. -/
def typeNodeOf (path : String) (cs : List Char) (m : Nat × String × Nat) : CodeNode :=
  { id := path ++ ":" ++ m.2.1, name := m.2.1, file := path, line := lineOfIndex cs m.1,
    size := 60,
    color := if containsSub (chars "interface") ((cs.drop m.1).take m.2.2)
             then "#00bfff" else "#ff69b4",
    language := "typescript", linesOfCode := 0,
    type := if containsSub (chars "interface") ((cs.drop m.1).take m.2.2)
            then "interface" else "type",
    isType := true }

/-- The per-match step of extractTypeScriptTypes. -/
def typeStep (path : String) (cs : List Char) (s : ParserState)
    (m : Nat × String × Nat) : ParserState :=
  if hasKey s.nodes (path ++ ":" ++ m.2.1) then s
  else { s with nodes := jsSet s.nodes (path ++ ":" ++ m.2.1) (typeNodeOf path cs m) }

/-- The function-pattern pass of extractEntities (including the folder
colour registration that precedes it). -/
def entityPass (s : ParserState) (content path : String) (lang : SupportedLanguage) :
    ParserState :=
  match entityPatternFor lang with
  | some m => (scanAllB m (chars content)).foldl
      (entityStep path lang (getFolderColor s.folderColors path).1 (chars content))
      { s with folderColors := (getFolderColor s.folderColors path).2 }
  | none => { s with folderColors := (getFolderColor s.folderColors path).2 }

/-- The per-binding step of createFileImportLinks. -/
def importBindStep (s : ParserState) (importingFile : String)
    (links : List CodeLink) (bind : String × ImportMeta) : List CodeLink :=
  match extensionProbes.find? (fun ext => hasKey s.nodes (bind.2.sourceFile ++ ext)) with
  | some ext =>
    if links.any (fun l => l.source == importingFile && l.target == (bind.2.sourceFile ++ ext))
    then links
    else links ++ [⟨importingFile, bind.2.sourceFile ++ ext, 3, "import"⟩]
  | none => links

/-- The per-file step of createFileImportLinks. -/
def importFileStep (s : ParserState) (links : List CodeLink)
    (entry : String × List (String × ImportMeta)) : List CodeLink :=
  if ¬ hasKey s.nodes entry.1 then links
  else entry.2.foldl (importBindStep s entry.1) links

def stateAfterFiles (fcs : List FileContent) : ParserState :=
  fcs.foldl addFileNode emptyState

def stateAfterEntities (fcs : List FileContent) : ParserState :=
  fcs.foldl (fun s f => extractEntities s f.content f.path f.lang) (stateAfterFiles fcs)

def stateAfterImports (fcs : List FileContent) : ParserState :=
  fcs.foldl (fun s f => extractImportsPhase s f.content f.path f.lang) (stateAfterEntities fcs)

def stateAfterImportLinks (fcs : List FileContent) : ParserState :=
  createFileImportLinks (stateAfterImports fcs) (fcs.map (·.path))

def stateAfterCalls (fcs : List FileContent) : ParserState :=
  fcs.foldl (fun s f => extractCallsPhase s f.content f.path f.lang) (stateAfterImportLinks fcs)

/-- The structure links produced by addStructureLinks. -/
def structureLinksOf (s : ParserState) : List CodeLink :=
  ((s.nodes.map Prod.snd).filter
      (fun n => n.type != "file" && hasKey s.nodes n.file)).map
    (fun n => ⟨n.file, n.id, 2, "structure"⟩)

/-- The binding registered for one local name of one file. -/
def registryBinding (s : ParserState) (path localName : String) : Option ImportMeta :=
  match lookupKey s.impRegistry path with
  | some fileImports => lookupKey fileImports localName
  | none => none

theorem mem_jsSet {m : List (String × α)} {k : String} {v : α} {p : String × α}
    (h : p ∈ jsSet m k v) : p = (k, v) ∨ p ∈ m := by
  induction m with
  | nil => simpa [jsSet] using h
  | cons q rest ih =>
    obtain ⟨k₁, v₁⟩ := q
    by_cases hq : k₁ = k
    · rw [jsSet, if_pos hq] at h
      rcases List.mem_cons.mp h with h | h
      · exact Or.inl h
      · exact Or.inr (List.mem_cons_of_mem _ h)
    · rw [jsSet, if_neg hq] at h
      rcases List.mem_cons.mp h with h | h
      · exact Or.inr (h ▸ List.mem_cons_self _ _)
      · rcases ih h with h | h
        · exact Or.inl h
        · exact Or.inr (List.mem_cons_of_mem _ h)

theorem lookupKey_mem {m : List (String × α)} {k : String} {v : α}
    (h : lookupKey m k = some v) : (k, v) ∈ m := by
  induction m with
  | nil => simp [lookupKey] at h
  | cons q rest ih =>
    obtain ⟨k₁, v₁⟩ := q
    by_cases hq : k₁ = k
    · subst hq
      rw [lookupKey, if_pos rfl] at h
      cases h
      exact List.mem_cons_self _ _
    · rw [lookupKey, if_neg hq] at h
      exact List.mem_cons_of_mem _ (ih h)

theorem hasKey_iff_mem_keys {m : List (String × α)} {k : String} :
    hasKey m k = true ↔ k ∈ m.map Prod.fst := by
  induction m with
  | nil => simp [hasKey, lookupKey]
  | cons q rest ih =>
    obtain ⟨k₁, v₁⟩ := q
    by_cases hq : k₁ = k
    · simp [hasKey, lookupKey, if_pos hq, hq]
    · simp only [hasKey] at ih ⊢
      rw [lookupKey, if_neg hq]
      simp only [List.map_cons, List.mem_cons, ih]
      constructor
      · exact Or.inr
      · rintro (h | h)
        · exact absurd h.symm hq
        · exact h

theorem keys_jsSet (m : List (String × α)) (k : String) (v : α) :
    (jsSet m k v).map Prod.fst =
      (if hasKey m k then m.map Prod.fst else m.map Prod.fst ++ [k]) := by
  induction m with
  | nil => simp [jsSet, hasKey, lookupKey]
  | cons q rest ih =>
    obtain ⟨k₁, v₁⟩ := q
    by_cases hq : k₁ = k
    · simp [jsSet, if_pos hq, hasKey, lookupKey, hq]
    · have hcons : hasKey ((k₁, v₁) :: rest) k = hasKey rest k := by
        simp [hasKey, lookupKey, if_neg hq]
      rw [jsSet, if_neg hq, List.map_cons, ih, hcons]
      by_cases hr : hasKey rest k
      · simp [hr]
      · simp [hr]

theorem hasKey_jsSet {m : List (String × α)} {k x : String} {v : α} :
    hasKey (jsSet m k v) x = true ↔ (hasKey m x = true ∨ x = k) := by
  rw [hasKey_iff_mem_keys, hasKey_iff_mem_keys, keys_jsSet]
  by_cases hk : hasKey m k
  · simp only [hk, if_true]
    constructor
    · exact Or.inl
    · rintro (h | rfl)
      · exact h
      · exact hasKey_iff_mem_keys.mp hk
  · simp [hk, List.mem_append]

theorem nodup_keys_jsSet {m : List (String × α)} {k : String} {v : α}
    (h : (m.map Prod.fst).Nodup) : ((jsSet m k v).map Prod.fst).Nodup := by
  rw [keys_jsSet]
  by_cases hk : hasKey m k
  · simpa [hk]
  · have hk' : k ∉ m.map Prod.fst := fun hm => hk (hasKey_iff_mem_keys.mpr hm)
    have hnd : (m.map Prod.fst ++ [k]).Nodup := by
      rw [List.nodup_append]
      exact ⟨h, List.nodup_singleton k,
        fun a ha hmem => hk' ((List.mem_singleton.mp hmem) ▸ ha)⟩
    simpa [hk]

/-! ## Fold preservation lemmas -/

theorem foldlPreserve {P : β → Prop} (f : β → α → β)
    (h : ∀ b a, P b → P (f b a)) :
    ∀ (l : List α) (b : β), P b → P (l.foldl f b)
  | [], _, hb => hb
  | a :: l, b, hb => foldlPreserve f h l (f b a) (h b a hb)

theorem foldlPreserveWith {P : β → Prop} {Q : β → α → Prop} (f : β → α → β)
    (hQ : ∀ b a a₁, Q b a₁ → Q (f b a) a₁)
    (h : ∀ b a, P b → Q b a → P (f b a)) :
    ∀ (l : List α) (b : β), P b → (∀ a ∈ l, Q b a) → P (l.foldl f b)
  | [], _, hb, _ => hb
  | a :: l, b, hb, hq =>
    foldlPreserveWith f hQ h l (f b a) (h b a hb (hq a (List.mem_cons_self a l)))
      (fun a₁ ha₁ => hQ b a a₁ (hq a₁ (List.mem_cons_of_mem a ha₁)))

/-! ## Node map invariant preservation -/

theorem nodeEntryOk_mono {m m₁ : List (String × CodeNode)} {p : String × CodeNode}
    (hmono : ∀ x, hasKey m x = true → hasKey m₁ x = true)
    (h : NodeEntryOk m p) : NodeEntryOk m₁ p :=
  ⟨h.1, h.2.1, h.2.2.1, fun ht => hmono _ (h.2.2.2 ht)⟩

theorem nodesWf_jsSet {m : List (String × CodeNode)} {k : String} {v : CodeNode}
    (hm : NodesWf m) (hid : v.id = k)
    (hfile : v.type = "file" → v.language = "system")
    (hfn : v.type = "function" → v.name ∉ reservedNames)
    (hkey : v.type ≠ "file" → (hasKey m v.file = true ∨ v.file = k)) :
    NodesWf (jsSet m k v) := by
  have hmono : ∀ x, hasKey m x = true → hasKey (jsSet m k v) x = true :=
    fun x hx => hasKey_jsSet.mpr (Or.inl hx)
  refine ⟨nodup_keys_jsSet hm.1, fun p hp => ?_⟩
  rcases mem_jsSet hp with rfl | hpm
  · exact ⟨hid, hfile, hfn, fun ht => (hkey ht).elim (fun h => hmono _ h)
      (fun h => hasKey_jsSet.mpr (Or.inr h))⟩
  · exact nodeEntryOk_mono hmono (hm.2 p hpm)

theorem hasKey_addFileNode {s : ParserState} {f : FileContent} {x : String}
    (h : hasKey s.nodes x = true) : hasKey (addFileNode s f).nodes x = true :=
  hasKey_jsSet.mpr (Or.inl h)

theorem nodesWf_addFileNode {s : ParserState} {f : FileContent}
    (h : NodesWf s.nodes) : NodesWf (addFileNode s f).nodes := by
  refine nodesWf_jsSet h rfl (fun _ => rfl) (fun hfn => ?_) (fun ht => absurd rfl ht)
  have hfn₁ : ("file" : String) = "function" := hfn
  exact absurd hfn₁ (by decide)

theorem links_addFileNode (s : ParserState) (f : FileContent) :
    (addFileNode s f).links = s.links := rfl

/-- extractEntities rewritten through its named pieces (definitional). -/
theorem extractEntities_eq (s : ParserState) (content path : String)
    (lang : SupportedLanguage) :
    extractEntities s content path lang =
      (let fc := getFolderColor s.folderColors path
       let s₁ := { s with folderColors := fc.2 }
       let s₂ :=
         match entityPatternFor lang with
         | some m => (scanAllB m (chars content)).foldl
             (entityStep path lang fc.1 (chars content)) s₁
         | none => s₁
       if lang = SupportedLanguage.typescript ∨ lang = SupportedLanguage.javascript then
         let s₃ := extractClassMethods s₂ content path lang fc.1
         if lang = SupportedLanguage.typescript then
           extractTypeScriptTypes s₃ content path fc.1
         else s₃
       else s₂) := by
  rfl

theorem hasKey_entityStep {path : String} {lang : SupportedLanguage} {fcol : String}
    {cs : List Char} {s : ParserState} {t : Nat × String} {x : String}
    (h : hasKey s.nodes x = true) :
    hasKey (entityStep path lang fcol cs s t).nodes x = true := by
  unfold entityStep
  split
  · exact h
  · exact hasKey_jsSet.mpr (Or.inl h)

theorem nodesWf_entityStep {path : String} {lang : SupportedLanguage} {fcol : String}
    {cs : List Char} {s : ParserState} {t : Nat × String}
    (h : NodesWf s.nodes) (hp : hasKey s.nodes path = true) :
    NodesWf (entityStep path lang fcol cs s t).nodes := by
  unfold entityStep
  split
  · exact h
  · next hcond =>
    refine nodesWf_jsSet h rfl (fun hf => ?_) (fun _ hname => hcond (Or.inr hname))
      (fun _ => Or.inl (show hasKey s.nodes (entityNode path lang fcol cs t).file = true from hp))
    have hf₁ : ("function" : String) = "file" := hf
    exact absurd hf₁ (by decide)

theorem links_entityStep (path : String) (lang : SupportedLanguage) (fcol : String)
    (cs : List Char) (s : ParserState) (t : Nat × String) :
    (entityStep path lang fcol cs s t).links = s.links := by
  unfold entityStep
  split <;> rfl

theorem extractClassMethods_eq (s : ParserState) (content path : String)
    (lang : SupportedLanguage) (folderColor : String) :
    extractClassMethods s content path lang folderColor =
      (scanAllB (withLen classDeclAt) (chars content)).foldl
        (classStep content path lang folderColor) s := by
  rfl

theorem classStep_nodes (content path : String) (lang : SupportedLanguage)
    (folderColor : String) (s : ParserState) (cm : Nat × String × Nat) :
    (classStep content path lang folderColor s cm).nodes =
      ((scanAllB (fun _ => methodDeclAt)
          (((chars content).drop cm.1).take
            (braceScan (chars content) (cm.1 + cm.2.2) 1 - cm.1))).foldl
        (methodStep path cm.2.1 lang folderColor (chars content) cm.1) (s, [])).1.nodes := by
  rfl

theorem classStep_links (content path : String) (lang : SupportedLanguage)
    (folderColor : String) (s : ParserState) (cm : Nat × String × Nat) :
    (classStep content path lang folderColor s cm).links =
      ((scanAllB (fun _ => methodDeclAt)
          (((chars content).drop cm.1).take
            (braceScan (chars content) (cm.1 + cm.2.2) 1 - cm.1))).foldl
        (methodStep path cm.2.1 lang folderColor (chars content) cm.1) (s, [])).1.links := by
  rfl

theorem methodStep_fst_nodes_hasKey {path className : String} {lang : SupportedLanguage}
    {fcol : String} {cs : List Char} {ci : Nat}
    {acc : ParserState × List (String × String)} {mm : Nat × String} {x : String}
    (h : hasKey acc.1.nodes x = true) :
    hasKey (methodStep path className lang fcol cs ci acc mm).1.nodes x = true :=
  hasKey_jsSet.mpr (Or.inl h)

theorem methodStep_fst_nodes_wf {path className : String} {lang : SupportedLanguage}
    {fcol : String} {cs : List Char} {ci : Nat}
    {acc : ParserState × List (String × String)} {mm : Nat × String}
    (h : NodesWf acc.1.nodes) (hp : hasKey acc.1.nodes path = true) :
    NodesWf (methodStep path className lang fcol cs ci acc mm).1.nodes := by
  refine nodesWf_jsSet h rfl (fun hf => ?_) (fun hfn => ?_) (fun _ => Or.inl hp)
  · have hf₁ : ("method" : String) = "file" := hf
    exact absurd hf₁ (by decide)
  · have hfn₁ : ("method" : String) = "function" := hfn
    exact absurd hfn₁ (by decide)

theorem methodStep_fst_links {path className : String} {lang : SupportedLanguage}
    {fcol : String} {cs : List Char} {ci : Nat}
    {acc : ParserState × List (String × String)} {mm : Nat × String} :
    (methodStep path className lang fcol cs ci acc mm).1.links = acc.1.links := rfl

theorem hasKey_classStep {content path : String} {lang : SupportedLanguage}
    {fcol : String} {s : ParserState} {cm : Nat × String × Nat} {x : String}
    (h : hasKey s.nodes x = true) :
    hasKey (classStep content path lang fcol s cm).nodes x = true := by
  rw [classStep_nodes]
  exact foldlPreserve
    (P := fun (acc : ParserState × List (String × String)) => hasKey acc.1.nodes x = true)
    (methodStep path cm.2.1 lang fcol (chars content) cm.1)
    (fun b a hb => methodStep_fst_nodes_hasKey hb) _ (s, []) h

theorem nodesWf_classStep {content path : String} {lang : SupportedLanguage}
    {fcol : String} {s : ParserState} {cm : Nat × String × Nat}
    (h : NodesWf s.nodes) (hp : hasKey s.nodes path = true) :
    NodesWf (classStep content path lang fcol s cm).nodes := by
  rw [classStep_nodes]
  have := foldlPreserve
    (P := fun (acc : ParserState × List (String × String)) =>
      NodesWf acc.1.nodes ∧ hasKey acc.1.nodes path = true)
    (methodStep path cm.2.1 lang fcol (chars content) cm.1)
    (fun b a hb => ⟨methodStep_fst_nodes_wf hb.1 hb.2, methodStep_fst_nodes_hasKey hb.2⟩)
    ((scanAllB (fun _ => methodDeclAt)
        (((chars content).drop cm.1).take
          (braceScan (chars content) (cm.1 + cm.2.2) 1 - cm.1))))
    (s, []) ⟨h, hp⟩
  exact this.1

theorem links_classStep {content path : String} {lang : SupportedLanguage}
    {fcol : String} {s : ParserState} {cm : Nat × String × Nat} :
    (classStep content path lang fcol s cm).links = s.links := by
  rw [classStep_links]
  exact foldlPreserve (P := fun (acc : ParserState × List (String × String)) =>
      acc.1.links = s.links)
    (methodStep path cm.2.1 lang fcol (chars content) cm.1)
    (fun b a hb => Eq.trans methodStep_fst_links hb) _ (s, []) rfl

theorem hasKey_extractClassMethods {s : ParserState} {content path : String}
    {lang : SupportedLanguage} {fcol : String} {x : String}
    (h : hasKey s.nodes x = true) :
    hasKey (extractClassMethods s content path lang fcol).nodes x = true := by
  rw [extractClassMethods_eq]
  exact foldlPreserve (P := fun s₁ => hasKey s₁.nodes x = true)
    (classStep content path lang fcol)
    (fun b a hb => hasKey_classStep hb) _ s h

theorem nodesWf_extractClassMethods {s : ParserState} {content path : String}
    {lang : SupportedLanguage} {fcol : String}
    (h : NodesWf s.nodes) (hp : hasKey s.nodes path = true) :
    NodesWf (extractClassMethods s content path lang fcol).nodes := by
  rw [extractClassMethods_eq]
  have := foldlPreserve
    (P := fun s₁ => NodesWf s₁.nodes ∧ hasKey s₁.nodes path = true)
    (classStep content path lang fcol)
    (fun b a hb => ⟨nodesWf_classStep hb.1 hb.2, hasKey_classStep hb.2⟩)
    (scanAllB (withLen classDeclAt) (chars content)) s ⟨h, hp⟩
  exact this.1

theorem links_extractClassMethods (s : ParserState) (content path : String)
    (lang : SupportedLanguage) (fcol : String) :
    (extractClassMethods s content path lang fcol).links = s.links := by
  rw [extractClassMethods_eq]
  exact foldlPreserve (P := fun s₁ => s₁.links = s.links)
    (classStep content path lang fcol)
    (fun b a hb => Eq.trans links_classStep hb) _ s rfl

theorem extractTypeScriptTypes_eq (s : ParserState) (content path folderColor : String) :
    extractTypeScriptTypes s content path folderColor =
      (scanAllB (withLen interfaceDeclAt) (chars content)).foldl
        (typeStep path (chars content)) s := by
  rfl

theorem hasKey_typeStep {path : String} {cs : List Char} {s : ParserState}
    {m : Nat × String × Nat} {x : String}
    (h : hasKey s.nodes x = true) : hasKey (typeStep path cs s m).nodes x = true := by
  unfold typeStep
  split
  · exact h
  · exact hasKey_jsSet.mpr (Or.inl h)

theorem nodesWf_typeStep {path : String} {cs : List Char} {s : ParserState}
    {m : Nat × String × Nat}
    (h : NodesWf s.nodes) (hp : hasKey s.nodes path = true) :
    NodesWf (typeStep path cs s m).nodes := by
  unfold typeStep
  split
  · exact h
  · refine nodesWf_jsSet h rfl (fun hf => ?_) (fun hfn => ?_) (fun _ => Or.inl hp)
    · simp only [typeNodeOf] at hf
      by_cases hi : containsSub (chars "interface") ((cs.drop m.1).take m.2.2)
      · rw [if_pos hi] at hf
        exact absurd hf (by decide)
      · rw [if_neg hi] at hf
        exact absurd hf (by decide)
    · simp only [typeNodeOf] at hfn
      by_cases hi : containsSub (chars "interface") ((cs.drop m.1).take m.2.2)
      · rw [if_pos hi] at hfn
        exact absurd hfn (by decide)
      · rw [if_neg hi] at hfn
        exact absurd hfn (by decide)

theorem links_typeStep (path : String) (cs : List Char) (s : ParserState)
    (m : Nat × String × Nat) : (typeStep path cs s m).links = s.links := by
  unfold typeStep
  split <;> rfl

theorem hasKey_extractTypeScriptTypes {s : ParserState} {content path fcol : String}
    {x : String} (h : hasKey s.nodes x = true) :
    hasKey (extractTypeScriptTypes s content path fcol).nodes x = true := by
  rw [extractTypeScriptTypes_eq]
  exact foldlPreserve (P := fun s₁ => hasKey s₁.nodes x = true)
    (typeStep path (chars content)) (fun b a hb => hasKey_typeStep hb) _ s h

theorem nodesWf_extractTypeScriptTypes {s : ParserState} {content path fcol : String}
    (h : NodesWf s.nodes) (hp : hasKey s.nodes path = true) :
    NodesWf (extractTypeScriptTypes s content path fcol).nodes := by
  rw [extractTypeScriptTypes_eq]
  have := foldlPreserve
    (P := fun s₁ => NodesWf s₁.nodes ∧ hasKey s₁.nodes path = true)
    (typeStep path (chars content))
    (fun b a hb => ⟨nodesWf_typeStep hb.1 hb.2, hasKey_typeStep hb.2⟩)
    (scanAllB (withLen interfaceDeclAt) (chars content)) s ⟨h, hp⟩
  exact this.1

theorem links_extractTypeScriptTypes (s : ParserState) (content path fcol : String) :
    (extractTypeScriptTypes s content path fcol).links = s.links := by
  rw [extractTypeScriptTypes_eq]
  exact foldlPreserve (P := fun s₁ => s₁.links = s.links)
    (typeStep path (chars content))
    (fun b a hb => Eq.trans (links_typeStep _ _ _ _) hb) _ s rfl

/-! ## Combined extractEntities lemmas -/

theorem extractEntities_eq' (s : ParserState) (content path : String)
    (lang : SupportedLanguage) :
    extractEntities s content path lang =
      (if lang = SupportedLanguage.typescript ∨ lang = SupportedLanguage.javascript then
        (if lang = SupportedLanguage.typescript then
          extractTypeScriptTypes
            (extractClassMethods (entityPass s content path lang) content path lang
              (getFolderColor s.folderColors path).1)
            content path (getFolderColor s.folderColors path).1
        else
          extractClassMethods (entityPass s content path lang) content path lang
            (getFolderColor s.folderColors path).1)
      else entityPass s content path lang) := by
  rfl

theorem hasKey_entityPass {s : ParserState} {content path : String}
    {lang : SupportedLanguage} {x : String}
    (h : hasKey s.nodes x = true) :
    hasKey (entityPass s content path lang).nodes x = true := by
  unfold entityPass
  split
  · exact foldlPreserve (P := fun s₁ => hasKey s₁.nodes x = true)
      (entityStep path lang (getFolderColor s.folderColors path).1 (chars content))
      (fun b a hb => hasKey_entityStep hb) _
      { s with folderColors := (getFolderColor s.folderColors path).2 } h
  · exact h

theorem nodesWf_entityPass {s : ParserState} {content path : String}
    {lang : SupportedLanguage}
    (h : NodesWf s.nodes) (hp : hasKey s.nodes path = true) :
    NodesWf (entityPass s content path lang).nodes ∧
      hasKey (entityPass s content path lang).nodes path = true := by
  unfold entityPass
  split
  · exact foldlPreserve
      (P := fun s₁ => NodesWf s₁.nodes ∧ hasKey s₁.nodes path = true)
      (entityStep path lang (getFolderColor s.folderColors path).1 (chars content))
      (fun b a hb => ⟨nodesWf_entityStep hb.1 hb.2, hasKey_entityStep hb.2⟩) _
      { s with folderColors := (getFolderColor s.folderColors path).2 } ⟨h, hp⟩
  · exact ⟨h, hp⟩

theorem links_entityPass (s : ParserState) (content path : String)
    (lang : SupportedLanguage) :
    (entityPass s content path lang).links = s.links := by
  unfold entityPass
  split
  · exact foldlPreserve (P := fun s₁ => s₁.links = s.links)
      (entityStep path lang (getFolderColor s.folderColors path).1 (chars content))
      (fun b a hb => Eq.trans (links_entityStep _ _ _ _ _ _) hb) _
      { s with folderColors := (getFolderColor s.folderColors path).2 } rfl
  · rfl

theorem hasKey_extractEntities {s : ParserState} {content path : String}
    {lang : SupportedLanguage} {x : String}
    (h : hasKey s.nodes x = true) :
    hasKey (extractEntities s content path lang).nodes x = true := by
  rw [extractEntities_eq']
  split
  · split
    · exact hasKey_extractTypeScriptTypes (hasKey_extractClassMethods (hasKey_entityPass h))
    · exact hasKey_extractClassMethods (hasKey_entityPass h)
  · exact hasKey_entityPass h

theorem nodesWf_extractEntities {s : ParserState} {content path : String}
    {lang : SupportedLanguage}
    (h : NodesWf s.nodes) (hp : hasKey s.nodes path = true) :
    NodesWf (extractEntities s content path lang).nodes := by
  rw [extractEntities_eq']
  have hep := @nodesWf_entityPass s content path lang h hp
  split
  · split
    · exact nodesWf_extractTypeScriptTypes (nodesWf_extractClassMethods hep.1 hep.2)
        (hasKey_extractClassMethods hep.2)
    · exact nodesWf_extractClassMethods hep.1 hep.2
  · exact hep.1

theorem links_extractEntities (s : ParserState) (content path : String)
    (lang : SupportedLanguage) :
    (extractEntities s content path lang).links = s.links := by
  rw [extractEntities_eq']
  split
  · split
    · rw [links_extractTypeScriptTypes, links_extractClassMethods, links_entityPass]
    · rw [links_extractClassMethods, links_entityPass]
  · rw [links_entityPass]

/-! ## Link invariant preservation -/

theorem linksPre_append {ls : List CodeLink} {x : CodeLink}
    (h : LinksPre ls)
    (hany : ¬ ls.any (fun l => l.source == x.source && l.target == x.target) = true)
    (ht : x.type = "call" ∨ x.type = "import")
    (hs : x.type = "call" → x.source ≠ x.target) :
    LinksPre (ls ++ [x]) := by
  have hall : ∀ l ∈ ls, ¬(l.source = x.source ∧ l.target = x.target) := by
    intro l hl hc
    exact hany (List.any_eq_true.mpr ⟨l, hl, by simp [hc.1, hc.2]⟩)
  constructor
  · show (ls ++ [x]).Pairwise (fun a b => ¬(a.source = b.source ∧ a.target = b.target))
    rw [List.pairwise_append]
    refine ⟨h.1, List.pairwise_singleton _ _, ?_⟩
    intro a ha b hb
    rw [List.mem_singleton] at hb
    subst hb
    exact hall a ha
  · intro l hl
    rcases List.mem_append.mp hl with hl | hl
    · exact h.2 l hl
    · rw [List.mem_singleton] at hl
      subst hl
      exact ⟨ht, hs⟩

theorem nodes_createFileImportLinks (s : ParserState) (filePaths : List String) :
    (createFileImportLinks s filePaths).nodes = s.nodes := rfl

theorem createFileImportLinks_links (s : ParserState) (filePaths : List String) :
    (createFileImportLinks s filePaths).links =
      s.impRegistry.foldl (importFileStep s) s.links := by
  rfl

theorem linksPre_importBindStep {s : ParserState} {f : String} {ls : List CodeLink}
    {bind : String × ImportMeta} (h : LinksPre ls) :
    LinksPre (importBindStep s f ls bind) := by
  unfold importBindStep
  split
  · split
    · exact h
    · next hany =>
      exact linksPre_append h hany (Or.inr rfl)
        (fun hc => absurd (show ("import" : String) = "call" from hc) (by decide))
  · exact h

theorem linksPre_createFileImportLinks {s : ParserState} {filePaths : List String}
    (h : LinksPre s.links) : LinksPre (createFileImportLinks s filePaths).links := by
  rw [createFileImportLinks_links]
  refine foldlPreserve (P := fun ls => LinksPre ls) (importFileStep s) ?_ _ _ h
  intro ls entry hls
  unfold importFileStep
  split
  · exact hls
  · exact foldlPreserve (P := fun ls => LinksPre ls) (importBindStep s entry.1)
      (fun b a hb => linksPre_importBindStep hb) _ ls hls

theorem nodesWf_bumpTargetSize {nodes : List (String × CodeNode)} {targetId : String}
    (h : NodesWf nodes) : NodesWf (bumpTargetSize nodes targetId) := by
  unfold bumpTargetSize
  split
  · next node heq =>
    have hok := h.2 _ (lookupKey_mem heq)
    exact nodesWf_jsSet h hok.1 hok.2.1 hok.2.2.1 (fun ht => Or.inl (hok.2.2.2 ht))
  · exact h

theorem phaseInv_handleCallSite {s : ParserState} {path : String} {target : CodeNode}
    {line : Nat} (h : NodesWf s.nodes ∧ LinksPre s.links) :
    NodesWf (handleCallSite s path target line).nodes ∧
      LinksPre (handleCallSite s path target line).links := by
  unfold handleCallSite
  split
  · exact h
  · next sourceNode heq =>
    split
    · exact h
    · split
      · exact h
      · next hne hany =>
        refine ⟨nodesWf_bumpTargetSize h.1, ?_⟩
        exact linksPre_append h.2 hany (Or.inl rfl) (fun _ => hne)

theorem phaseInv_scanTargetCalls {s : ParserState} {content : List Char} {path : String}
    {target : CodeNode} {callName : String}
    (h : NodesWf s.nodes ∧ LinksPre s.links) :
    NodesWf (scanTargetCalls s content path target callName).nodes ∧
      LinksPre (scanTargetCalls s content path target callName).links := by
  unfold scanTargetCalls
  exact foldlPreserve
    (P := fun s₁ => NodesWf s₁.nodes ∧ LinksPre s₁.links)
    (fun s idx => handleCallSite s path target (lineOfIndex content idx))
    (fun b a hb => phaseInv_handleCallSite hb) _ s h

theorem phaseInv_callTargetStep {s : ParserState} {content : List Char} {path : String}
    {lang : SupportedLanguage} {target : CodeNode}
    (h : NodesWf s.nodes ∧ LinksPre s.links) :
    NodesWf (callTargetStep s content path lang target).nodes ∧
      LinksPre (callTargetStep s content path lang target).links := by
  unfold callTargetStep
  split
  · exact h
  · split
    · exact h
    · exact phaseInv_scanTargetCalls h

theorem phaseInv_extractCallsPhase {s : ParserState} {content path : String}
    {lang : SupportedLanguage}
    (h : NodesWf s.nodes ∧ LinksPre s.links) :
    NodesWf (extractCallsPhase s content path lang).nodes ∧
      LinksPre (extractCallsPhase s content path lang).links := by
  unfold extractCallsPhase
  exact foldlPreserve
    (P := fun s₁ => NodesWf s₁.nodes ∧ LinksPre s₁.links)
    (fun s target => callTargetStep s (chars content) path lang target)
    (fun b a hb => phaseInv_callTargetStep hb) _ s h

theorem nodes_extractImportsPhase (s : ParserState) (content path : String)
    (lang : SupportedLanguage) :
    (extractImportsPhase s content path lang).nodes = s.nodes := by
  unfold extractImportsPhase
  split <;> rfl

theorem links_extractImportsPhase (s : ParserState) (content path : String)
    (lang : SupportedLanguage) :
    (extractImportsPhase s content path lang).links = s.links := by
  unfold extractImportsPhase
  split <;> rfl

/-! ## Pipeline stage lemmas -/

theorem analyzeState_eq (files : List InputFile) (main : SupportedLanguage) :
    analyzeState files main = addStructureLinks (stateAfterCalls (ingest files main)) := by
  rfl

theorem hasKey_stateAfterFiles_aux :
    ∀ (l : List FileContent) (s : ParserState), ∀ f ∈ l,
      hasKey (l.foldl addFileNode s).nodes f.path = true
  | [], _, f, hf => absurd hf (List.not_mem_nil f)
  | g :: l, s, f, hf => by
    rcases List.mem_cons.mp hf with rfl | hf
    · have hg : hasKey (addFileNode s f).nodes f.path = true :=
        hasKey_jsSet.mpr (Or.inr rfl)
      exact foldlPreserve (P := fun s₁ => hasKey s₁.nodes f.path = true) addFileNode
        (fun b a hb => hasKey_addFileNode hb) l (addFileNode s f) hg
    · exact hasKey_stateAfterFiles_aux l (addFileNode s g) f hf

theorem hasKey_stateAfterFiles {fcs : List FileContent} {f : FileContent} (hf : f ∈ fcs) :
    hasKey (stateAfterFiles fcs).nodes f.path = true :=
  hasKey_stateAfterFiles_aux fcs emptyState f hf

theorem nodesWf_stateAfterFiles (fcs : List FileContent) :
    NodesWf (stateAfterFiles fcs).nodes := by
  have hbase : NodesWf emptyState.nodes :=
    ⟨List.nodup_nil, fun p hp => absurd hp (List.not_mem_nil p)⟩
  exact foldlPreserve (P := fun s₁ => NodesWf s₁.nodes) addFileNode
    (fun b a hb => nodesWf_addFileNode hb) fcs emptyState hbase

theorem links_stateAfterFiles (fcs : List FileContent) :
    (stateAfterFiles fcs).links = [] :=
  foldlPreserve (P := fun s₁ => s₁.links = []) addFileNode
    (fun b a hb => Eq.trans (links_addFileNode b a) hb) fcs emptyState rfl

theorem nodesWf_stateAfterEntities (fcs : List FileContent) :
    NodesWf (stateAfterEntities fcs).nodes := by
  unfold stateAfterEntities
  have := foldlPreserveWith
    (P := fun s₁ => NodesWf s₁.nodes)
    (Q := fun s₁ f => hasKey s₁.nodes f.path = true)
    (fun s f => extractEntities s f.content f.path f.lang)
    (fun b a a₁ hq => hasKey_extractEntities hq)
    (fun b a hp hq => nodesWf_extractEntities hp hq)
    fcs (stateAfterFiles fcs) (nodesWf_stateAfterFiles fcs)
    (fun f hf => hasKey_stateAfterFiles hf)
  exact this

theorem links_stateAfterEntities (fcs : List FileContent) :
    (stateAfterEntities fcs).links = [] := by
  unfold stateAfterEntities
  have := foldlPreserve (P := fun s₁ => s₁.links = [])
    (fun s f => extractEntities s f.content f.path f.lang)
    (fun b a hb => Eq.trans (links_extractEntities b a.content a.path a.lang) hb)
    fcs (stateAfterFiles fcs) (links_stateAfterFiles fcs)
  exact this

theorem nodes_stateAfterImports (fcs : List FileContent) :
    (stateAfterImports fcs).nodes = (stateAfterEntities fcs).nodes := by
  unfold stateAfterImports
  exact foldlPreserve (P := fun s₁ => s₁.nodes = (stateAfterEntities fcs).nodes)
    (fun s f => extractImportsPhase s f.content f.path f.lang)
    (fun b a hb => Eq.trans (nodes_extractImportsPhase b a.content a.path a.lang) hb)
    fcs (stateAfterEntities fcs) rfl

theorem links_stateAfterImports (fcs : List FileContent) :
    (stateAfterImports fcs).links = [] := by
  unfold stateAfterImports
  exact foldlPreserve (P := fun s₁ => s₁.links = [])
    (fun s f => extractImportsPhase s f.content f.path f.lang)
    (fun b a hb => Eq.trans (links_extractImportsPhase b a.content a.path a.lang) hb)
    fcs (stateAfterEntities fcs) (links_stateAfterEntities fcs)

theorem nodesWf_stateAfterImportLinks (fcs : List FileContent) :
    NodesWf (stateAfterImportLinks fcs).nodes := by
  unfold stateAfterImportLinks
  rw [nodes_createFileImportLinks, nodes_stateAfterImports]
  exact nodesWf_stateAfterEntities fcs

theorem linksPre_stateAfterImportLinks (fcs : List FileContent) :
    LinksPre (stateAfterImportLinks fcs).links := by
  unfold stateAfterImportLinks
  refine linksPre_createFileImportLinks ?_
  rw [links_stateAfterImports]
  exact ⟨List.Pairwise.nil, fun l hl => absurd hl (List.not_mem_nil l)⟩

theorem phaseInv_stateAfterCalls (fcs : List FileContent) :
    NodesWf (stateAfterCalls fcs).nodes ∧ LinksPre (stateAfterCalls fcs).links := by
  unfold stateAfterCalls
  exact foldlPreserve
    (P := fun s₁ => NodesWf s₁.nodes ∧ LinksPre s₁.links)
    (fun s f => extractCallsPhase s f.content f.path f.lang)
    (fun b a hb => phaseInv_extractCallsPhase hb)
    fcs (stateAfterImportLinks fcs)
    ⟨nodesWf_stateAfterImportLinks fcs, linksPre_stateAfterImportLinks fcs⟩

/-! ## The structure-edge pass -/

theorem foldl_push_filter (c : α → Bool) (mk : α → β) :
    ∀ (l : List α) (init : List β),
      l.foldl (fun ls n => if c n then ls ++ [mk n] else ls) init
        = init ++ (l.filter c).map mk
  | [], init => by simp
  | a :: l, init => by
    by_cases hc : c a
    · rw [List.foldl_cons, List.filter_cons]
      simp only [hc, if_true, if_pos]
      rw [foldl_push_filter c mk l (init ++ [mk a]), List.map_cons, List.append_assoc]
      rfl
    · rw [List.foldl_cons, List.filter_cons]
      simp only [hc, Bool.false_eq_true, if_false, if_neg]
      rw [foldl_push_filter c mk l init]

theorem addStructureLinks_links (s : ParserState) :
    (addStructureLinks s).links = s.links ++ structureLinksOf s := by
  unfold addStructureLinks structureLinksOf
  exact foldl_push_filter _ _ _ _

theorem addStructureLinks_nodes (s : ParserState) :
    (addStructureLinks s).nodes = s.nodes := rfl

/-! ## Final graph lemmas -/

theorem analyzeFiles_nodes (files : List InputFile) (main : SupportedLanguage) :
    (analyzeFiles files main).nodes =
      (stateAfterCalls (ingest files main)).nodes.map Prod.snd := rfl

theorem analyzeFiles_links (files : List InputFile) (main : SupportedLanguage) :
    (analyzeFiles files main).links =
      (stateAfterCalls (ingest files main)).links ++
        structureLinksOf (stateAfterCalls (ingest files main)) := by
  show (analyzeState files main).links = _
  rw [analyzeState_eq, addStructureLinks_links]

theorem values_id_eq_keys {m : List (String × CodeNode)} (h : NodesWf m) :
    m.map (fun p => p.2.id) = m.map Prod.fst :=
  List.map_congr_left (fun p hp => (h.2 p hp).1)

theorem structureLinks_target_nodup {s : ParserState} (h : NodesWf s.nodes) :
    ((structureLinksOf s).map (fun l => l.target)).Nodup := by
  unfold structureLinksOf
  rw [List.map_map]
  have hcomp : ((fun l : CodeLink => l.target) ∘
      (fun n : CodeNode => (⟨n.file, n.id, 2, "structure"⟩ : CodeLink))) =
      fun n : CodeNode => n.id := rfl
  rw [hcomp]
  have hsub : List.Sublist
      (((s.nodes.map Prod.snd).filter
        (fun n => n.type != "file" && hasKey s.nodes n.file)).map (fun n => n.id))
      ((s.nodes.map Prod.snd).map (fun n => n.id)) :=
    (List.filter_sublist _).map _
  refine List.Nodup.sublist hsub ?_
  rw [List.map_map]
  have hcomp₂ : ((fun n : CodeNode => n.id) ∘ (Prod.snd : String × CodeNode → CodeNode)) =
      fun p : String × CodeNode => p.2.id := rfl
  rw [hcomp₂, values_id_eq_keys h]
  exact h.1

theorem tripleDistinct_addStructureLinks {s : ParserState}
    (hn : NodesWf s.nodes) (hl : LinksPre s.links) :
    TripleDistinct (s.links ++ structureLinksOf s) := by
  show (s.links ++ structureLinksOf s).Pairwise
    (fun a b => ¬(a.type = b.type ∧ a.source = b.source ∧ a.target = b.target))
  rw [List.pairwise_append]
  refine ⟨?_, ?_, ?_⟩
  · exact hl.1.imp (fun hab hc => hab ⟨hc.2.1, hc.2.2⟩)
  · have hnd := structureLinks_target_nodup hn
    have hpw := List.pairwise_map.mp hnd
    exact hpw.imp (fun hab hc => hab hc.2.2)
  · intro a ha b hb hc
    have hat := (hl.2 a ha).1
    have hbt : b.type = "structure" := by
      unfold structureLinksOf at hb
      obtain ⟨n, _, rfl⟩ := List.mem_map.mp hb
      rfl
    rw [hbt] at hc
    rcases hat with h₁ | h₁ <;> rw [h₁] at hc
    · exact absurd hc.1 (by decide)
    · exact absurd hc.1 (by decide)

/-! ## Enclosing entity lemmas -/

theorem mem_insertByLineDesc {a x : CodeNode} :
    ∀ {l : List CodeNode}, x ∈ insertByLineDesc a l ↔ x = a ∨ x ∈ l := by
  intro l
  induction l with
  | nil => simp [insertByLineDesc]
  | cons b t ih =>
    unfold insertByLineDesc
    split
    · simp
    · rw [List.mem_cons, ih, List.mem_cons]
      tauto

theorem mem_sortByLineDesc {x : CodeNode} :
    ∀ {l : List CodeNode}, x ∈ sortByLineDesc l ↔ x ∈ l := by
  intro l
  induction l with
  | nil => simp [sortByLineDesc]
  | cons b t ih =>
    show x ∈ insertByLineDesc b (sortByLineDesc t) ↔ _
    rw [mem_insertByLineDesc, ih, List.mem_cons]

theorem findEnclosingEntity_eq_none {nodes : List (String × CodeNode)} {path : String}
    {line : Nat}
    (h : ∀ n ∈ nodes.map Prod.snd, ¬(n.file = path ∧ n.type ≠ "file" ∧ n.line ≤ line)) :
    findEnclosingEntity nodes path line = none := by
  unfold findEnclosingEntity
  rw [List.find?_eq_none]
  intro n hn
  rw [mem_sortByLineDesc, List.mem_filter] at hn
  obtain ⟨hmem, hcond⟩ := hn
  rw [Bool.and_eq_true, beq_iff_eq, bne_iff_ne] at hcond
  intro hline
  rw [decide_eq_true_iff] at hline
  exact h n hmem ⟨hcond.1, hcond.2, hline⟩

/-! ## Claim theorems -/

set_option maxRecDepth 4096

/-- Claim C1: on the two-file example, a.ts importing helper as h from ./b
and calling h() inside run, the assembled graph contains the call edge from
a.ts:run to b.ts:helper, and the visibility resolution for the target
helper from a.ts yields the locally bound name h, not the original name
helper. -/
theorem call_resolution_example :
    (CodeLink.mk "a.ts:run" "b.ts:helper" 1 "call") ∈
      (analyzeFiles exampleTsFiles SupportedLanguage.typescript).links ∧
    resolveCallName (analyzeState exampleTsFiles SupportedLanguage.typescript) "a.ts"
      (CodeNode.mk "b.ts:helper" "helper" "b.ts" 1 83 "#00ff41" "typescript" 0
        "function" false) = (true, "h") ∧
    ("h" : String) ≠ "helper" := by
  refine ⟨by decide, by decide, by decide⟩

/-- Claim C2 counterexample: resolving the imports of a.ts binds h to the
extensionless resolved source b, not to b.ts as the claim states. -/
theorem import_binding_counterexample :
    registryBinding (analyzeState exampleTsFiles SupportedLanguage.typescript) "a.ts" "h" ≠
      some (ImportMeta.mk "b.ts" "helper") := by
  decide

/-- Claim C2 (amended): resolving the imports of a.ts yields the binding
h to sourceFile b (the resolved specifier without extension) and original
name helper, and the assembled graph contains the import edge from a.ts to
b.ts, found by extension probing. -/
theorem import_resolution_example_amended :
    registryBinding (analyzeState exampleTsFiles SupportedLanguage.typescript) "a.ts" "h" =
      some (ImportMeta.mk "b" "helper") ∧
    (CodeLink.mk "a.ts" "b.ts" 3 "import") ∈
      (analyzeFiles exampleTsFiles SupportedLanguage.typescript).links := by
  refine ⟨by decide, by decide⟩

/-- Claim C3 counterexample: in the rust example the entity b.rs:target
exists, the call-site pattern for target matches inside a.rs, yet no call
edge from a.rs:caller to b.rs:target is produced, because the always
visible fallback applies only to python, not to every language without
an import-declaration model. -/
theorem rust_visibility_counterexample :
    (CodeNode.mk "b.rs:target" "target" "b.rs" 1 80 "#00ff41" "rust" 0
        "function" false) ∈ (analyzeFiles exampleRustFiles SupportedLanguage.rust).nodes ∧
    findCallSites (chars "target") (chars "fn caller() \x7b\n    target();\n\x7d\n") = [18] ∧
    (CodeLink.mk "a.rs:caller" "b.rs:target" 1 "call") ∉
      (analyzeFiles exampleRustFiles SupportedLanguage.rust).links := by
  refine ⟨by decide, by decide, by decide⟩

/-- Claim C3 (amended): only python files treat every non-file entity of
the project as visible: for python the per-target call step never takes the
visibility skip branch and always scans the text for the resolved call
name, and in the python example a cross-file call edge is produced with
no import-declaration model. -/
theorem python_only_visibility_fallback :
    (∀ (s : ParserState) (content : List Char) (path : String) (target : CodeNode),
      target.type ≠ "file" →
      callTargetStep s content path SupportedLanguage.python target =
        scanTargetCalls s content path target (resolveCallName s path target).2) ∧
    (CodeLink.mk "a.py:caller" "b.py:target" 1 "call") ∈
      (analyzeFiles examplePyFiles SupportedLanguage.python).links := by
  constructor
  · intro s content path target ht
    unfold callTargetStep
    rw [if_neg ht, if_neg (by simp)]
  · decide

/-- Witness for the amended claim C3 at a concrete state and target. -/
theorem python_only_visibility_fallback_witness :
    callTargetStep emptyState (chars "target()") "a.py" SupportedLanguage.python
        (CodeNode.mk "b.py:target" "target" "b.py" 1 80 "#00ff41" "python" 0
          "function" false) =
      scanTargetCalls emptyState (chars "target()") "a.py"
        (CodeNode.mk "b.py:target" "target" "b.py" 1 80 "#00ff41" "python" 0
          "function" false)
        (resolveCallName emptyState "a.py"
          (CodeNode.mk "b.py:target" "target" "b.py" 1 80 "#00ff41" "python" 0
            "function" false)).2 :=
  python_only_visibility_fallback.1 emptyState (chars "target()") "a.py"
    (CodeNode.mk "b.py:target" "target" "b.py" 1 80 "#00ff41" "python" 0
      "function" false) (by decide)

/-- Claim C4: in the output of every analysis run no two edges share kind,
source and target: call and import edges are deduplicated on endpoints
before insertion, and the structure pass emits one edge per node map entry,
whose targets are the distinct node ids. -/
theorem edge_triple_uniqueness (files : List InputFile) (mainLanguage : SupportedLanguage) :
    TripleDistinct (analyzeFiles files mainLanguage).links := by
  have hinv := phaseInv_stateAfterCalls (ingest files mainLanguage)
  have h := tripleDistinct_addStructureLinks hinv.1 hinv.2
  show (analyzeFiles files mainLanguage).links.Pairwise _
  rw [analyzeFiles_links]
  exact h

/-- Claim C5 counterexample: the method pattern of extractClassMethods has
no reserved-name filter, so the class body if (x) ... yields a captured
method name if and the entity c.ts:Foo.if appears in the output node set. -/
theorem reserved_method_name_counterexample :
    ((scanAllB (fun _ => methodDeclAt)
        (chars "class Foo \x7b if (x) \x7b y \x7d \x7d\n")).map Prod.snd) = ["if"] ∧
    (CodeNode.mk "c.ts:Foo.if" "Foo.if" "c.ts" 1 80 "#00ff41" "typescript" 0
        "method" false) ∈
      (analyzeFiles exampleClassFiles SupportedLanguage.typescript).nodes := by
  refine ⟨by decide, by decide⟩

/-- Claim C5 (amended): the reserved-name denylist applies to the
function-pattern pass: no function-kind entity in any output ever carries
one of the reserved names if, while, for, loop, match; class-method
captures are not filtered. -/
theorem reserved_word_exclusion_function_pass (files : List InputFile)
    (mainLanguage : SupportedLanguage) (n : CodeNode)
    (hn : n ∈ (analyzeFiles files mainLanguage).nodes)
    (ht : n.type = "function") : n.name ∉ reservedNames := by
  rw [analyzeFiles_nodes] at hn
  obtain ⟨p, hp, hpn⟩ := List.mem_map.mp hn
  have hok := (phaseInv_stateAfterCalls (ingest files mainLanguage)).1.2 p hp
  rw [← hpn]
  exact hok.2.2.1 (hpn ▸ ht)

/-- Witness for the amended claim C5 at the python example caller node. -/
theorem reserved_word_exclusion_function_pass_witness :
    ("caller" : String) ∉ reservedNames :=
  reserved_word_exclusion_function_pass examplePyFiles SupportedLanguage.python
    (CodeNode.mk "a.py:caller" "caller" "a.py" 1 80 "#00ff41" "python" 0
      "function" false) (by decide) (by decide)

/-- Claim C6: in the output of every analysis run, every non-file entity n
has a structure edge from the file node id n.file to n. -/
theorem containment_completeness (files : List InputFile)
    (mainLanguage : SupportedLanguage) (n : CodeNode)
    (hn : n ∈ (analyzeFiles files mainLanguage).nodes)
    (ht : n.type ≠ "file") :
    ∃ l ∈ (analyzeFiles files mainLanguage).links,
      l.type = "structure" ∧ l.source = n.file ∧ l.target = n.id := by
  rw [analyzeFiles_nodes] at hn
  obtain ⟨p, hp, hpn⟩ := List.mem_map.mp hn
  have hok := (phaseInv_stateAfterCalls (ingest files mainLanguage)).1.2 p hp
  have hhk : hasKey (stateAfterCalls (ingest files mainLanguage)).nodes n.file = true := by
    rw [← hpn]
    exact hok.2.2.2 (hpn ▸ ht)
  refine ⟨⟨n.file, n.id, 2, "structure"⟩, ?_, rfl, rfl, rfl⟩
  rw [analyzeFiles_links]
  refine List.mem_append_right _ ?_
  unfold structureLinksOf
  refine List.mem_map.mpr ⟨n, ?_, rfl⟩
  rw [List.mem_filter]
  refine ⟨hn, ?_⟩
  rw [Bool.and_eq_true, bne_iff_ne]
  exact ⟨ht, hhk⟩

/-- Witness for claim C6 at the python example caller node. -/
theorem containment_completeness_witness :
    ∃ l ∈ (analyzeFiles examplePyFiles SupportedLanguage.python).links,
      l.type = "structure" ∧
        l.source = (CodeNode.mk "a.py:caller" "caller" "a.py" 1 80 "#00ff41" "python" 0
          "function" false).file ∧
        l.target = (CodeNode.mk "a.py:caller" "caller" "a.py" 1 80 "#00ff41" "python" 0
          "function" false).id :=
  containment_completeness examplePyFiles SupportedLanguage.python
    (CodeNode.mk "a.py:caller" "caller" "a.py" 1 80 "#00ff41" "python" 0
      "function" false) (by decide) (by decide)

/-- Claim C7: in the output of every analysis run no call edge is a self
loop: the per-match body only pushes a call edge when the enclosing entity
differs from the target. -/
theorem no_call_self_loops (files : List InputFile) (mainLanguage : SupportedLanguage)
    (l : CodeLink) (hl : l ∈ (analyzeFiles files mainLanguage).links)
    (ht : l.type = "call") : l.source ≠ l.target := by
  rw [analyzeFiles_links] at hl
  rcases List.mem_append.mp hl with hl | hl
  · exact ((phaseInv_stateAfterCalls (ingest files mainLanguage)).2.2 l hl).2 ht
  · unfold structureLinksOf at hl
    obtain ⟨n, _, rfl⟩ := List.mem_map.mp hl
    exact absurd (show ("structure" : String) = "call" from ht) (by decide)

/-- Witness for claim C7 at the call edge of the two-file example. -/
theorem no_call_self_loops_witness : ("a.ts:run" : String) ≠ "b.ts:helper" :=
  no_call_self_loops exampleTsFiles SupportedLanguage.typescript
    (CodeLink.mk "a.ts:run" "b.ts:helper" 1 "call") (by decide) (by decide)

/-- Claim C9: every file-kind node of every output carries the sentinel
language tag system, which is not the tag of any supported language. -/
theorem file_nodes_language_sentinel (files : List InputFile)
    (mainLanguage : SupportedLanguage) (n : CodeNode)
    (hn : n ∈ (analyzeFiles files mainLanguage).nodes)
    (ht : n.type = "file") :
    n.language = "system" ∧ ∀ lang : SupportedLanguage, langTag lang ≠ "system" := by
  refine ⟨?_, fun lang => by cases lang <;> decide⟩
  rw [analyzeFiles_nodes] at hn
  obtain ⟨p, hp, hpn⟩ := List.mem_map.mp hn
  have hok := (phaseInv_stateAfterCalls (ingest files mainLanguage)).1.2 p hp
  rw [← hpn]
  exact hok.2.1 (hpn ▸ ht)

/-- Witness for claim C9 at the a.py file node. -/
theorem file_nodes_language_sentinel_witness :
    (CodeNode.mk "a.py" "a.py" "a.py" 0 150 "#00ff41" "system" 0
      "file" false).language = "system" ∧
    ∀ lang : SupportedLanguage, langTag lang ≠ "system" :=
  file_nodes_language_sentinel examplePyFiles SupportedLanguage.python
    (CodeNode.mk "a.py" "a.py" "a.py" 0 150 "#00ff41" "system" 0 "file" false)
    (by decide) (by decide)

/-- Claim C10: a call-site match in a file with no non-file entity declared
at or before the call-site line is silently dropped: the per-match body
leaves the state unchanged, emitting no edge and bumping no weight. -/
theorem orphan_call_site_dropped (s : ParserState) (path : String) (target : CodeNode)
    (line : Nat)
    (h : ∀ n ∈ s.nodes.map Prod.snd, ¬(n.file = path ∧ n.type ≠ "file" ∧ n.line ≤ line)) :
    handleCallSite s path target line = s := by
  unfold handleCallSite
  rw [findEnclosingEntity_eq_none h]

/-- Witness for claim C10: a state holding only a file node drops a match. -/
theorem orphan_call_site_dropped_witness :
    handleCallSite
      (ParserState.mk [("x.ts", CodeNode.mk "x.ts" "x.ts" "x.ts" 0 150 "#00ff41"
        "system" 0 "file" false)] [] [] [] [])
      "x.ts"
      (CodeNode.mk "x.ts:f" "f" "x.ts" 1 80 "#00ff41" "typescript" 0 "function" false)
      5 =
    ParserState.mk [("x.ts", CodeNode.mk "x.ts" "x.ts" "x.ts" 0 150 "#00ff41"
      "system" 0 "file" false)] [] [] [] [] :=
  orphan_call_site_dropped _ _ _ _ (by decide)

theorem braceScanAux_le (cs : List Char) :
    ∀ (fuel idx depth : Nat), braceScanAux cs fuel idx depth ≤ idx + fuel
  | 0, idx, _ => Nat.le_refl idx
  | fuel + 1, idx, depth => by
    unfold braceScanAux
    split
    · exact Nat.le_trans (braceScanAux_le cs fuel (idx + 1) _) (by omega)
    · omega

/-- Claim C8: the delimiter-depth walk of the class-body boundary scan is
bounded by the end of the text for every input, including text with
unmatched braces, and extraction of such a file still completes with a
definite node set. -/
theorem brace_scan_bounded :
    (∀ (cs : List Char) (idx depth : Nat), idx ≤ cs.length →
      braceScan cs idx depth ≤ cs.length) ∧
    ((analyzeFiles [InputFile.mk "u.ts" "" "class Foo \x7b bar() \x7b baz()"]
        SupportedLanguage.typescript).nodes.map (fun n => n.id)) =
      ["u.ts", "u.ts:Foo.bar"] := by
  constructor
  · intro cs idx depth hle
    unfold braceScan
    have := braceScanAux_le cs (cs.length - idx) idx depth
    omega
  · decide

/-- Witness for claim C8 on a text with an unmatched brace. -/
theorem brace_scan_bounded_witness :
    braceScan (chars "class Foo \x7b bar() \x7b baz()") 11 1 ≤
      (chars "class Foo \x7b bar() \x7b baz()").length :=
  brace_scan_bounded.1 (chars "class Foo \x7b bar() \x7b baz()") 11 1 (by decide)
